import Mathlib

/-!
Shallow embedding of the generic tree container (`src/Tree.ts`, with the
second source variant `src/unnamed/part_000`).  The TypeScript class
`Tree<T>` is embedded as the inductive `Node` (the spec's name for the
component) to avoid clashing with the library type of the same name.

Modelling conventions:
* JS payload values are the inductive `Value` (objects and arrays are
  represented with the mutual types `ValueFields` / `ValueList`; `undef`
  models the JS value `undefined`).
* A nested serialized record (`serializedTree<T>` in the source: a record
  whose optional `children` field holds an array of records of the same
  shape) is the mutual inductive `SRec` / `SRecs`.  The constructor
  `SRec.noKids` is a record without a `children` field, `SRec.withKids`
  a record whose `children` field is present (possibly the empty array):
  the source distinguishes the two (`children?:` is an optional field).
* A live node (`class Tree<T>`) is the mutual inductive `Node` / `NodeMap`:
  `NodeMap` is the insertion-ordered string-keyed children container
  (a plain JS object in the source; all keys assigned by the code contain
  a dot, hence are non-index JS keys, so JS object iteration order is
  insertion order).  `Node.leaf` is a node whose optional `children`
  container is absent, `Node.node` one where it is present.
  The `parent` back reference of the source cannot be represented in a
  purely inductive tree; a node's parent is represented by the position of
  the node inside its parent's children container, and "located node"
  operations (`ancestors`, `getPath`) take the root and a child-index path.
-/

mutual

inductive Value where
  | undef : Value
  | vnull : Value
  | vbool : Bool → Value
  | num : Int → Value
  | str : String → Value
  | arr : ValueList → Value
  | obj : ValueFields → Value

inductive ValueList where
  | nil : ValueList
  | cons : Value → ValueList → ValueList

inductive ValueFields where
  | nil : ValueFields
  | cons : String → Value → ValueFields → ValueFields

end

/-- Field lookup in a JS object (first occurrence; JS objects have unique
keys, so this is the plain property read `o[k]`). -/
def lookupField : ValueFields → String → Option Value
  | ValueFields.nil, _ => none
  | ValueFields.cons k v rest, k2 => if k = k2 then some v else lookupField rest k2

/-- Number of fields of a JS object. -/
def fieldsLength : ValueFields → Nat
  | ValueFields.nil => 0
  | ValueFields.cons _ _ rest => fieldsLength rest + 1

mutual

/-- Deep structural equality of JS values (lodash `isEqual` semantics:
object field order is irrelevant, field sets and values must agree). -/
def vEq : Value → Value → Bool
  | Value.undef, Value.undef => true
  | Value.vnull, Value.vnull => true
  | Value.vbool a, Value.vbool b => a = b
  | Value.num a, Value.num b => a = b
  | Value.str a, Value.str b => a = b
  | Value.arr a, Value.arr b => vlEq a b
  | Value.obj a, Value.obj b => fieldsLength a = fieldsLength b && vfSub a b
  | _, _ => false

def vlEq : ValueList → ValueList → Bool
  | ValueList.nil, ValueList.nil => true
  | ValueList.cons a as, ValueList.cons b bs => vEq a b && vlEq as bs
  | _, _ => false

/-- Every field of the second object is present in the first with a deeply
equal value (order irrelevant). -/
def vfSub : ValueFields → ValueFields → Bool
  | _, ValueFields.nil => true
  | a, ValueFields.cons k v rest =>
      (match lookupField a k with
        | some w => vEq w v
        | none => false) && vfSub a rest

end

mutual

/-- A well-formed nested serialized record (`serializedTree<T>`): payload
fields plus an optional `children` array.  `noKids` = no `children` field,
`withKids` = `children` field present holding the given array. -/
inductive SRec where
  | noKids : List (String × Value) → SRec
  | withKids : List (String × Value) → SRecs → SRec

inductive SRecs where
  | nil : SRecs
  | cons : SRec → SRecs → SRecs

end

def SRec.fields : SRec → List (String × Value)
  | SRec.noKids f => f
  | SRec.withKids f _ => f

def SRecs.toList : SRecs → List SRec
  | SRecs.nil => []
  | SRecs.cons r rs => r :: SRecs.toList rs

def SRecs.length : SRecs → Nat
  | SRecs.nil => 0
  | SRecs.cons _ rs => SRecs.length rs + 1

mutual

/-- A live node of the tree (`class Tree<T>`): `leaf` = the optional
`children` container is absent, `node` = it is present (possibly empty). -/
inductive Node where
  | leaf : String → SRec → Node
  | node : String → SRec → NodeMap → Node

/-- Insertion-ordered string-keyed children container (the JS object
`children` of the source). -/
inductive NodeMap where
  | nil : NodeMap
  | cons : String → Node → NodeMap → NodeMap

end

def Node.key : Node → String
  | Node.leaf k _ => k
  | Node.node k _ _ => k

def Node.data : Node → SRec
  | Node.leaf _ d => d
  | Node.node _ d _ => d

/-- The optional `children` container of a node. -/
def Node.children : Node → Option NodeMap
  | Node.leaf _ _ => none
  | Node.node _ _ m => some m

def NodeMap.toList : NodeMap → List (String × Node)
  | NodeMap.nil => []
  | NodeMap.cons k c rest => (k, c) :: NodeMap.toList rest

/-- `Object.keys` of the children container. -/
def NodeMap.keys : NodeMap → List String
  | NodeMap.nil => []
  | NodeMap.cons k _ rest => k :: NodeMap.keys rest

/-- `Object.values` of the children container. -/
def NodeMap.values : NodeMap → List Node
  | NodeMap.nil => []
  | NodeMap.cons _ c rest => c :: NodeMap.values rest

def NodeMap.hasKey : NodeMap → String → Bool
  | NodeMap.nil, _ => false
  | NodeMap.cons k _ rest, k2 => k = k2 || NodeMap.hasKey rest k2

/-- Property write `m[k] = c` on a JS object: if the key is present its
value is replaced in place, otherwise the entry is appended at the end
(JS insertion order for non-index keys). -/
def NodeMap.insert : NodeMap → String → Node → NodeMap
  | NodeMap.nil, k, c => NodeMap.cons k c NodeMap.nil
  | NodeMap.cons k1 c1 rest, k, c =>
      if k1 = k then NodeMap.cons k1 c rest
      else NodeMap.cons k1 c1 (NodeMap.insert rest k c)

/-- Map lookup `m[k]` (read). -/
def NodeMap.find : NodeMap → String → Option Node
  | NodeMap.nil, _ => none
  | NodeMap.cons k1 c1 rest, k => if k1 = k then some c1 else NodeMap.find rest k

/-! ## Key strings

The keys assigned by the code are dot-separated decimal numbers.  The
source manipulates them with `String.prototype.split`, `parseInt` and
`Array.prototype.join`; these are embedded below at the character-list
level. -/

/-- The decimal digit character for `d < 10`. -/
def digitChar (d : Nat) : Char := Char.ofNat (48 + d)

/-- Fuelled decimal rendering of a natural number (the fuel bounds the
number of digits; `natChars` supplies a sufficient amount).  Embeds the
JS number-to-string conversion for non-negative integers. -/
def natCharsCore : Nat → Nat → List Char → List Char
  | 0, _, acc => acc
  | fuel + 1, n, acc =>
      if n < 10 then digitChar n :: acc
      else natCharsCore fuel (n / 10) (digitChar (n % 10) :: acc)

/-- Decimal rendering of a natural number. -/
def natChars (n : Nat) : List Char := natCharsCore (n + 1) n []

/-- JS `String.prototype.split(".")` at the character level: split on
every dot, keeping empty segments. -/
def splitOnDot : List Char → List (List Char)
  | [] => [[]]
  | c :: cs =>
      if c = '.' then [] :: splitOnDot cs
      else
        match splitOnDot cs with
        | [] => [[c]]
        | s :: ss => (c :: s) :: ss

/-- Join character segments with a dot (`Array.prototype.join(".")`). -/
def joinDot : List (List Char) → List Char
  | [] => []
  | [s] => s
  | s :: ss => s ++ '.' :: joinDot ss

/-- The numeric value of a decimal digit character, if it is one. -/
def digitVal (c : Char) : Option Nat :=
  if 48 ≤ c.toNat ∧ c.toNat ≤ 57 then some (c.toNat - 48) else none

/-- Accumulate the maximal run of leading decimal digits (the core loop
of JS `parseInt`); `none` means no digit was seen, i.e. NaN. -/
def leadDigits : List Char → Option Nat → Option Nat
  | [], acc => acc
  | c :: cs, acc =>
      match digitVal c with
      | some d => leadDigits cs (some (10 * acc.getD 0 + d))
      | none => acc

/-- JS `parseInt(s, 10)`: optional sign, then the leading run of decimal
digits; `none` embeds NaN. -/
def jsParseInt (s : List Char) : Option Int :=
  match s with
  | [] => none
  | c :: cs =>
      if c = '-' then (leadDigits cs none).map (fun n => -(n : Int))
      else if c = '+' then (leadDigits cs none).map (fun n => (n : Int))
      else (leadDigits (c :: cs) none).map (fun n => (n : Int))

/-- JS number-to-string for the entries of the key array after parsing
and incrementing: `none` (NaN) renders as `"NaN"`. -/
def renderNum : Option Int → List Char
  | none => ['N', 'a', 'N']
  | some i => if i < 0 then '-' :: natChars (-i).toNat else natChars i.toNat

/-- `keyArray[keyArray.length - 1]++`: increment the final entry of the
parsed key array (NaN stays NaN). -/
def incLast : List (Option Int) → List (Option Int)
  | [] => []
  | [x] => [x.map (· + 1)]
  | x :: xs => x :: incLast xs

/-- The canonical key string of a nonempty sequence of child indices:
decimal renderings joined with dots.  Every key assigned by the code has
this shape (claim C5). -/
def canonKey (ks : List Nat) : String := String.mk (joinDot (ks.map natChars))

/-! ## The operations of the source class -/

/-- `Tree.getNextChildKey`, parameterised over the node's `key` and its
(possibly partially built, as during construction) `children` container:
if no children container exists or it is empty, return `key + ".0"`;
otherwise take the key of the most recently inserted child, split it on
`"."`, parse the segments with `parseInt`, increment the last segment,
and join with `"."`. -/
def nextChildKeyAux (key : String) (children : Option NodeMap) : String :=
  match children with
  | none => key ++ ".0"
  | some NodeMap.nil => key ++ ".0"
  | some m =>
      let lastKey := (NodeMap.keys m).getLastD ""
      let keyArray := (splitOnDot lastKey.data).map jsParseInt
      String.mk (joinDot ((incLast keyArray).map renderNum))

/-- `Tree.getNextChildKey` on a node. -/
def Node.getNextChildKey (t : Node) : String := nextChildKeyAux t.key t.children

mutual

/-- The source constructor `new Tree(props, parent)`.  `data` is set to
the whole input record `props` (the source stores `props` itself,
`children` field included).  The key is the supplied one: `"0"` for a
root, `parent.getNextChildKey()` for a child — the caller passes it,
mirroring the source where the parent reference serves to compute the key.
If `props` carries a `children` field, an (initially empty) children
container is created and a child is constructed from each entry in order,
each claiming the next child key from the partially built container and
being installed under its own key. -/
def construct : SRec → String → Node
  | SRec.noKids f, key => Node.leaf key (SRec.noKids f)
  | SRec.withKids f cs, key =>
      Node.node key (SRec.withKids f cs) (constructChildren key NodeMap.nil cs)

/-- The `props.children.forEach` loop of the constructor: `acc` is the
children container built so far. -/
def constructChildren : String → NodeMap → SRecs → NodeMap
  | _, acc, SRecs.nil => acc
  | parentKey, acc, SRecs.cons r rs =>
      let ck := nextChildKeyAux parentKey (some acc)
      constructChildren parentKey (acc.insert ck (construct r ck)) rs

end

/-- `new Tree(props)` with no parent: the root, key `"0"`. -/
def constructRoot (X : SRec) : Node := construct X "0"

mutual

/-- `Tree.serialize`: a node without a children container returns its
`data` unchanged; otherwise the payload fields are combined with a
`children` field holding the serialized children in map order (the spread
`{...this.data, children: ...}` overwrites any `children` field that
`data` itself carries). -/
def serialize : Node → SRec
  | Node.leaf _ d => d
  | Node.node _ d m => SRec.withKids d.fields (serializeMap m)

def serializeMap : NodeMap → SRecs
  | NodeMap.nil => SRecs.nil
  | NodeMap.cons _ c rest => SRecs.cons (serialize c) (serializeMap rest)

end

mutual

/-- `Tree.descendants`: for each direct child in map order, the child
followed by its own descendants. -/
def descendants : Node → List Node
  | Node.leaf _ _ => []
  | Node.node _ _ m => descList m

def descList : NodeMap → List Node
  | NodeMap.nil => []
  | NodeMap.cons _ c rest => (c :: descendants c) ++ descList rest

end

/-- `Tree.childrenList`: the values of the children container in map
order, or the empty sequence if the container is absent. -/
def childrenList (t : Node) : List Node :=
  match t.children with
  | none => []
  | some m => m.values

/-- `Tree.get` of `src/Tree.ts`: the node itself if its own key matches,
otherwise the first descendant with the key. -/
def Node.get (t : Node) (key : String) : Option Node :=
  if t.key = key then some t
  else (descendants t).find? (fun n => n.key == key)

/-- `Tree.get` of `src/unnamed/part_000`: only the descendants are
searched; there is no self-match check. -/
def getV0 (t : Node) (key : String) : Option Node :=
  (descendants t).find? (fun n => n.key == key)

/-- `Tree.appendChild`: construct a child with the next key claimed from
this node, insert it into the children container (creating the container
if absent), return it.  The pure embedding returns the updated node
paired with the returned child. -/
def appendChild (t : Node) (d : SRec) : Node × Node :=
  let child := construct d t.getNextChildKey
  match t with
  | Node.leaf k dt => (Node.node k dt (NodeMap.cons child.key child NodeMap.nil), child)
  | Node.node k dt m => (Node.node k dt (m.insert child.key child), child)

/-! ## The JS value denoted by a stored record, and the search family -/

def fieldsOfList : List (String × Value) → ValueFields
  | [] => ValueFields.nil
  | (k, v) :: rest => ValueFields.cons k v (fieldsOfList rest)

def appendField : ValueFields → String → Value → ValueFields
  | ValueFields.nil, k, v => ValueFields.cons k v ValueFields.nil
  | ValueFields.cons k1 v1 rest, k, v => ValueFields.cons k1 v1 (appendField rest k v)

mutual

/-- A stored record viewed as the plain JS object it denotes: the payload
fields plus, when present, a `children` field holding the array of child
records.  (In the original object the `children` field sits at its source
position among the fields; all uses below are order-insensitive, so it is
appended at the end.) -/
def recToVal : SRec → Value
  | SRec.noKids f => Value.obj (fieldsOfList f)
  | SRec.withKids f cs =>
      Value.obj (appendField (fieldsOfList f) "children" (Value.arr (recsToVals cs)))

def recsToVals : SRecs → ValueList
  | SRecs.nil => ValueList.nil
  | SRecs.cons r rs => ValueList.cons (recToVal r) (recsToVals rs)

end

mutual

/-- Modelled from the spec: the structural-partial-match collaborator
(lodash `isMatch`, imported by the source but not itself part of `src/`).
Spec §6: object A matches partial predicate P iff every own field of P is
present in A with a deeply-equal value; fields of A not in P are ignored;
nested predicate fields are matched recursively (spec §4.1, search). -/
def vSub : Value → Value → Bool
  | Value.obj a, Value.obj p => vfMatch a p
  | Value.arr a, Value.arr p => vlSub a p
  | a, p => vEq a p

def vlSub : ValueList → ValueList → Bool
  | ValueList.nil, ValueList.nil => true
  | ValueList.cons a as, ValueList.cons p ps => vSub a p && vlSub as ps
  | _, _ => false

def vfMatch : ValueFields → ValueFields → Bool
  | _, ValueFields.nil => true
  | a, ValueFields.cons k p rest =>
      (match lookupField a k with
        | some w => vSub w p
        | none => false) && vfMatch a rest

end

mutual

/-- The descendants of a node in traversal order, each paired with its
chain of ancestors up to the node the search was launched on (nearest
ancestor first).  The second argument is the ancestor chain of the node
itself; the search entry points start it at `[]`: the node a search is
launched on is the root of the embedded value, so its own `parent`
property is absent. -/
def descendantsAnc : Node → List Node → List (List Node × Node)
  | Node.leaf _ _, _ => []
  | Node.node k d m, anc => descListAnc m (Node.node k d m :: anc)

/-- Children-container part of `descendantsAnc`: the second argument is
the ancestor chain of the children being listed (their parent first). -/
def descListAnc : NodeMap → List Node → List (List Node × Node)
  | NodeMap.nil, _ => []
  | NodeMap.cons _ c rest, chain =>
      ((chain, c) :: descendantsAnc c chain) ++ descListAnc rest chain

end

mutual

/-- Modelled from the spec: `isMatch(node, predicate)` with the candidate
being the live node wrapper (lodash `isMatch` is imported by the source
but is not itself part of `src/`).  Spec §6 gives the collaborator
contract: every own field of the predicate must be present on the
candidate with a deeply-equal value, fields of the candidate not in the
predicate are ignored, and nested predicate fields are matched
recursively; spec §9 notes the candidate is the node object, whose own
fields are `key`, `data` and — when assigned — `children` (the
key-to-node container) and `parent` (the back reference).  `anc` is the
candidate's ancestor chain, nearest first: a `parent` predicate field
descends this chain, a `children` predicate field descends into the
stored container (each child matched with the candidate pushed onto the
chain), and any other field name is not an own property of the wrapper,
so such a predicate field matches nothing. -/
def isMatchNode (anc : List Node) (t : Node) : ValueFields → Bool
  | ValueFields.nil => true
  | ValueFields.cons k v rest => isMatchField anc t k v && isMatchNode anc t rest

/-- Match of a single predicate field against the node wrapper: `key` and
`data` are compared by the partial deep match; `children` requires the
container to be present and the (object) predicate value to match it;
`parent` requires an ancestor and the (object) predicate value to match
its wrapper; a predicate value that is not an object never deeply equals
a node wrapper or a container, and an absent property never matches. -/
def isMatchField (anc : List Node) (t : Node) (k : String) (v : Value) : Bool :=
  if k = "key" then vSub (Value.str t.key) v
  else if k = "data" then vSub (recToVal t.data) v
  else if k = "children" then
    match t.children, v with
    | some m, Value.obj pf => isMatchChildren anc t m pf
    | _, _ => false
  else if k = "parent" then
    match anc, v with
    | p :: rest, Value.obj pf => isMatchNode rest p pf
    | _, _ => false
  else false

/-- Partial match of a predicate object against the children container:
every predicate key must name a stored child whose wrapper recursively
matches the corresponding (object) predicate value. -/
def isMatchChildren (anc : List Node) (t : Node) (m : NodeMap) : ValueFields → Bool
  | ValueFields.nil => true
  | ValueFields.cons ck cv rest =>
      (match m.find ck, cv with
        | some c, Value.obj cf => isMatchNode (t :: anc) c cf
        | _, _ => false) && isMatchChildren anc t m rest

end

/-- `Tree.findAllChildren`: filter `childrenList` by the match; the
candidates' parent is the searched node itself. -/
def findAllChildren (t : Node) (pred : ValueFields) : List Node :=
  (childrenList t).filter (fun n => isMatchNode [t] n pred)

/-- `Tree.findAllDescendants`: filter `descendants` by the match, each
candidate matched with its own ancestor chain. -/
def findAllDescendants (t : Node) (pred : ValueFields) : List Node :=
  ((descendantsAnc t []).filter (fun pc => isMatchNode pc.1 pc.2 pred)).map
    (fun pc => pc.2)

/-- `Tree.findOneDescendant`: `result[0]` of `findAllDescendants` when
nonempty, otherwise `undefined`. -/
def findOneDescendant (t : Node) (pred : ValueFields) : Option Node :=
  match findAllDescendants t pred with
  | [] => none
  | n :: _ => some n

/-- `Tree.findOneChild`: `result[0]` of `findAllChildren` when nonempty,
otherwise `undefined`. -/
def findOneChild (t : Node) (pred : ValueFields) : Option Node :=
  match findAllChildren t pred with
  | [] => none
  | n :: _ => some n

/-! ## Located nodes: ancestors and `getPath` -/

/-- The chain of nodes from `t` along the child-index path `p` (`t`
first, both endpoints included), if the path addresses a node. -/
def pathNodes : Node → List Nat → Option (List Node)
  | t, [] => some [t]
  | t, i :: p =>
      match (childrenList t).get? i with
      | some c => (pathNodes c p).map (fun ns => t :: ns)
      | none => none

/-- `Tree.ancestors` of the node located by path `p` from the root `t`:
parent, grandparent, …, root — nearest first; empty for the root. -/
def ancestorsAt (t : Node) (p : List Nat) : Option (List Node) :=
  (pathNodes t p).map (fun ns => ns.dropLast.reverse)

/-- The property read `this.data[indexer]` (`undefined` when absent).
`data` is the whole stored input record, so an `indexer` of `"children"`
on a record that carries children reads that array. -/
def SRec.read (d : SRec) (indexer : String) : Value :=
  match d with
  | SRec.noKids f =>
      (match lookupField (fieldsOfList f) indexer with
        | some v => v
        | none => Value.undef)
  | SRec.withKids f cs =>
      if indexer = "children" then Value.arr (recsToVals cs)
      else
        match lookupField (fieldsOfList f) indexer with
        | some v => v
        | none => Value.undef

/-- `Tree.getPath(indexer, includeRoot)` on the node located by path `p`
from the root `t`, mirroring the source: take `ancestors` (nearest
first); when `includeRoot` is false, pop the last entry (the root);
reverse; map each ancestor to `data[indexer]`; finally push this node's
own `data[indexer]`. -/
def getPath (t : Node) (p : List Nat) (indexer : String) (includeRoot : Bool) :
    Option (List Value) :=
  (pathNodes t p).map (fun ns =>
    let anc1 := ns.dropLast.reverse
    let anc2 := if includeRoot then anc1 else anc1.dropLast
    (anc2.reverse.map (fun a => SRec.read a.data indexer)) ++
      [SRec.read (ns.getLastD t).data indexer])

/-! ## The second source variant (`src/unnamed/part_000`)

Its constructor and `serialize` are textually identical to the ones of
`src/Tree.ts`; they are embedded again verbatim for claim C10.  Its `get`
(embedded above as `getV0`) differs: it has no self-match check. -/

namespace V0

mutual

/-- The constructor of `src/unnamed/part_000` (textually identical to the
one of `src/Tree.ts`). -/
def construct : SRec → String → Node
  | SRec.noKids f, key => Node.leaf key (SRec.noKids f)
  | SRec.withKids f cs, key =>
      Node.node key (SRec.withKids f cs) (constructChildren key NodeMap.nil cs)

def constructChildren : String → NodeMap → SRecs → NodeMap
  | _, acc, SRecs.nil => acc
  | parentKey, acc, SRecs.cons r rs =>
      let ck := nextChildKeyAux parentKey (some acc)
      constructChildren parentKey (acc.insert ck (construct r ck)) rs

end

/-- Root construction in the `part_000` variant. -/
def constructRoot (X : SRec) : Node := construct X "0"

mutual

/-- `serialize` of `src/unnamed/part_000` (textually identical to the one
of `src/Tree.ts`). -/
def serialize : Node → SRec
  | Node.leaf _ d => d
  | Node.node _ d m => SRec.withKids d.fields (serializeMap m)

def serializeMap : NodeMap → SRecs
  | NodeMap.nil => SRecs.nil
  | NodeMap.cons _ c rest => SRecs.cons (serialize c) (serializeMap rest)

end

end V0

/-! ## Reachable trees and the canonical-key invariant -/

/-- Replace the child at position `i` (insertion order) of the container
by its image under `f`; out-of-range positions leave it unchanged. -/
def NodeMap.modifyAt : NodeMap → Nat → (Node → Node) → NodeMap
  | NodeMap.nil, _, _ => NodeMap.nil
  | NodeMap.cons k c rest, 0, f => NodeMap.cons k (f c) rest
  | NodeMap.cons k c rest, i + 1, f => NodeMap.cons k c (NodeMap.modifyAt rest i f)

/-- `appendChild` performed at the node addressed by the child-index path
`p` (calling the method on an interior node of the tree); an invalid path
leaves the tree unchanged. -/
def appendAt : Node → List Nat → SRec → Node
  | t, [], d => (appendChild t d).1
  | Node.leaf k dt, _ :: _, _ => Node.leaf k dt
  | Node.node k dt m, i :: p, d =>
      Node.node k dt (m.modifyAt i (fun c => appendAt c p d))

/-- A sequence of `appendChild` calls at arbitrary nodes; together with
`constructRoot` this generates every tree reachable through the public
interface (there is no removal or re-parenting operation). -/
def applyOps : Node → List (List Nat × SRec) → Node
  | t, [] => t
  | t, (p, d) :: ops => applyOps (appendAt t p d) ops

mutual

/-- The canonical-key invariant (claim C5): the node's key is the dot
path `canonKey ks`, and the children container, when present, holds
children keyed `canonKey (ks ++ [0]), canonKey (ks ++ [1]), …` in
insertion order, each subtree satisfying the invariant recursively. -/
def goodT : List Nat → Node → Bool
  | ks, Node.leaf k _ => k == canonKey ks
  | ks, Node.node k _ m => k == canonKey ks && goodM ks 0 m

/-- Children container part of the invariant, starting at child index `i`. -/
def goodM : List Nat → Nat → NodeMap → Bool
  | _, _, NodeMap.nil => true
  | ks, i, NodeMap.cons k c rest =>
      k == canonKey (ks ++ [i]) && goodT (ks ++ [i]) c && goodM ks (i + 1) rest

end

/-! ## The §8 scenario tree -/

/-- `{name: "a"}` of the spec §8 scenario. -/
def recA : SRec := SRec.noKids [("name", Value.str "a")]

/-- `{name: "c"}` of the spec §8 scenario. -/
def recC : SRec := SRec.noKids [("name", Value.str "c")]

/-- `{name: "b", children: [{name: "c"}]}` of the spec §8 scenario. -/
def recB : SRec := SRec.withKids [("name", Value.str "b")] (SRecs.cons recC SRecs.nil)

/-- The §8 scenario record
`{name: "r", children: [{name: "a"}, {name: "b", children: [{name: "c"}]}]}`. -/
def demoRec : SRec :=
  SRec.withKids [("name", Value.str "r")] (SRecs.cons recA (SRecs.cons recB SRecs.nil))

/-- The §8 scenario tree, built by the root constructor. -/
def demoTree : Node := constructRoot demoRec

/-- The live "a" node of the scenario (key `"0.0"`). -/
def nodeA : Node := Node.leaf "0.0" recA

/-- The live "c" node of the scenario (key `"0.1.0"`). -/
def nodeC : Node := Node.leaf "0.1.0" recC

/-- The live "b" node of the scenario (key `"0.1"`, child "c"). -/
def nodeB : Node := Node.node "0.1" recB (NodeMap.cons "0.1.0" nodeC NodeMap.nil)

/-- The predicate object `{name: "a"}`. -/
def predNameA : ValueFields := ValueFields.cons "name" (Value.str "a") ValueFields.nil

/-- The predicate object `{name: "c"}`. -/
def predNameC : ValueFields := ValueFields.cons "name" (Value.str "c") ValueFields.nil

/-- The predicate object `{data: {name: "a"}}`. -/
def predDataA : ValueFields :=
  ValueFields.cons "data"
    (Value.obj (ValueFields.cons "name" (Value.str "a") ValueFields.nil)) ValueFields.nil

/-- The predicate object `{data: {name: "c"}}`. -/
def predDataC : ValueFields :=
  ValueFields.cons "data"
    (Value.obj (ValueFields.cons "name" (Value.str "c") ValueFields.nil)) ValueFields.nil

/-- The predicate object `{key: "0.1.0"}`. -/
def predKeyC : ValueFields := ValueFields.cons "key" (Value.str "0.1.0") ValueFields.nil

/-- The predicate object `{children: {"0.1.0": {data: {name: "c"}}}}`:
selects nodes whose children container holds, under the key `"0.1.0"`,
a node whose payload `name` is `"c"`. -/
def predChildrenB : ValueFields :=
  ValueFields.cons "children"
    (Value.obj (ValueFields.cons "0.1.0"
      (Value.obj (ValueFields.cons "data"
        (Value.obj (ValueFields.cons "name" (Value.str "c") ValueFields.nil))
        ValueFields.nil))
      ValueFields.nil))
    ValueFields.nil

/-- The predicate object `{parent: {data: {name: "r"}}}`: selects nodes
whose parent's payload `name` is `"r"`. -/
def predParentR : ValueFields :=
  ValueFields.cons "parent"
    (Value.obj (ValueFields.cons "data"
      (Value.obj (ValueFields.cons "name" (Value.str "r") ValueFields.nil))
      ValueFields.nil))
    ValueFields.nil

/-- The predicate object `{parent: {key: "0.1"}}`: selects nodes whose
parent's key is `"0.1"`. -/
def predParentB : ValueFields :=
  ValueFields.cons "parent"
    (Value.obj (ValueFields.cons "key" (Value.str "0.1") ValueFields.nil))
    ValueFields.nil

/-- Spec-side definition (§4.1 "store the non-children fields as `data`"):
the input record with its `children` field removed. -/
def stripChildren : SRec → SRec
  | SRec.noKids f => SRec.noKids f
  | SRec.withKids f _ => SRec.noKids f

/-- A record with no `children` field at any level (since children only
exist through a `children` field, this is exactly a record without one). -/
def noKidsDeep : SRec → Bool
  | SRec.noKids _ => true
  | SRec.withKids _ _ => false

/-- Numeric value of a digit string (auxiliary for the `parseInt` facts). -/
def valFold (l : List Char) (a : Nat) : Nat :=
  l.foldl (fun acc c => 10 * acc + (digitVal c).getD 0) a

/-- Append an entry at the end of a children container (what the property
write does for a key that is not yet present). -/
def NodeMap.snoc : NodeMap → String → Node → NodeMap
  | NodeMap.nil, k, c => NodeMap.cons k c NodeMap.nil
  | NodeMap.cons k1 c1 rest, k, c => NodeMap.cons k1 c1 (NodeMap.snoc rest k c)

/-- All keys of a subtree: the node's own key followed by the keys of its
descendants in traversal order. -/
def keyList (t : Node) : List String := t.key :: (descendants t).map Node.key

example : (NodeMap.nil.insert "a" (Node.leaf "a" (SRec.noKids []))).keys = ["a"] := rfl
example : canonKey [0] = "0" := rfl
example : canonKey [0, 1, 0] = "0.1.0" := rfl
example : jsParseInt "12".data = some 12 := rfl
example : (descendants demoTree).map Node.key = ["0.0", "0.1", "0.1.0"] := rfl
example : serialize demoTree = demoRec := rfl
example : goodT [0] demoTree = true := rfl

/-! ## Facts about decimal rendering and `parseInt` -/

theorem digitVal_digitChar {d : Nat} (h : d < 10) : digitVal (digitChar d) = some d := by
  interval_cases d <;> rfl

theorem ne_special_of_digit {c : Char} (h : (digitVal c).isSome) :
    c ≠ '.' ∧ c ≠ '-' ∧ c ≠ '+' := by
  refine ⟨?_, ?_, ?_⟩ <;> rintro rfl <;> revert h <;> decide

theorem natCharsCore_acc (fuel : Nat) : ∀ (n : Nat) (acc : List Char),
    natCharsCore fuel n acc = natCharsCore fuel n [] ++ acc := by
  induction fuel with
  | zero => intro n acc; rfl
  | succ fuel ih =>
      intro n acc
      by_cases h : n < 10
      · simp [natCharsCore, h]
      · simp only [natCharsCore, if_neg h]
        rw [ih (n / 10) (digitChar (n % 10) :: acc), ih (n / 10) [digitChar (n % 10)]]
        simp

theorem natCharsCore_fuel : ∀ (n fuel1 fuel2 : Nat), n < fuel1 → n < fuel2 →
    natCharsCore fuel1 n [] = natCharsCore fuel2 n [] := by
  intro n
  induction n using Nat.strong_induction_on with
  | _ n ih =>
      intro fuel1 fuel2 h1 h2
      match fuel1, fuel2 with
      | f1 + 1, f2 + 1 =>
          by_cases h : n < 10
          · simp [natCharsCore, h]
          · have hd : n / 10 < n := Nat.div_lt_self (by omega) (by omega)
            simp only [natCharsCore, if_neg h]
            rw [natCharsCore_acc f1, natCharsCore_acc f2,
              ih (n / 10) hd f1 f2 (by omega) (by omega)]

theorem natChars_digits : ∀ (n : Nat), ∀ c ∈ natChars n, (digitVal c).isSome := by
  intro n
  induction n using Nat.strong_induction_on with
  | _ n ih =>
      intro c hc
      unfold natChars natCharsCore at hc
      by_cases h : n < 10
      · simp only [if_pos h] at hc
        simp only [List.mem_singleton] at hc
        subst hc
        simp [digitVal_digitChar h]
      · have hd : n / 10 < n := Nat.div_lt_self (by omega) (by omega)
        simp only [if_neg h] at hc
        rw [natCharsCore_acc, natCharsCore_fuel (n / 10) n (n / 10 + 1) hd (by omega)] at hc
        rcases List.mem_append.1 hc with h1 | h2
        · exact ih (n / 10) hd c h1
        · simp only [List.mem_singleton] at h2
          subst h2
          simp [digitVal_digitChar (Nat.mod_lt n (by omega))]

theorem natChars_ne_nil (n : Nat) : natChars n ≠ [] := by
  unfold natChars natCharsCore
  by_cases h : n < 10
  · simp [h]
  · have hd : n / 10 < n := Nat.div_lt_self (by omega) (by omega)
    simp only [if_neg h]
    rw [natCharsCore_acc]
    simp

theorem valFold_concat (l : List Char) (x : Char) (a : Nat) :
    valFold (l ++ [x]) a = 10 * valFold l a + (digitVal x).getD 0 := by
  simp [valFold]

theorem valFold_natChars : ∀ (n : Nat), valFold (natChars n) 0 = n := by
  intro n
  induction n using Nat.strong_induction_on with
  | _ n ih =>
      unfold natChars natCharsCore
      by_cases h : n < 10
      · simp only [if_pos h]
        simp [valFold, digitVal_digitChar h]
      · have hd : n / 10 < n := Nat.div_lt_self (by omega) (by omega)
        simp only [if_neg h]
        have ihq : valFold (natCharsCore (n / 10 + 1) (n / 10) []) 0 = n / 10 := ih (n / 10) hd
        rw [natCharsCore_acc, natCharsCore_fuel (n / 10) n (n / 10 + 1) hd (by omega),
          valFold_concat, ihq, digitVal_digitChar (Nat.mod_lt n (by omega))]
        simp [Nat.div_add_mod]

theorem leadDigits_all_digits : ∀ (l : List Char) (rest : List Char) (a : Nat),
    (∀ c ∈ l, (digitVal c).isSome) →
    leadDigits (l ++ rest) (some a) = leadDigits rest (some (valFold l a)) := by
  intro l
  induction l with
  | nil => intro rest a _; simp [valFold]
  | cons c cs ih =>
      intro rest a hdig
      obtain ⟨d, hd⟩ := Option.isSome_iff_exists.1 (hdig c (by simp))
      have : valFold (c :: cs) a = valFold cs (10 * a + d) := by
        simp [valFold, hd]
      rw [List.cons_append, leadDigits, hd, this]
      exact ih rest (10 * a + d) (fun x hx => hdig x (by simp [hx]))

theorem leadDigits_natChars (n : Nat) : leadDigits (natChars n) none = some n := by
  obtain ⟨c, cs, hcc⟩ : ∃ c cs, natChars n = c :: cs := by
    cases h : natChars n with
    | nil => exact absurd h (natChars_ne_nil n)
    | cons c cs => exact ⟨c, cs, rfl⟩
  have hdig := natChars_digits n
  rw [hcc] at hdig
  obtain ⟨d, hd⟩ := Option.isSome_iff_exists.1 (hdig c (by simp))
  have h2 : leadDigits cs (some d) = some (valFold cs d) := by
    simpa using leadDigits_all_digits cs [] d (fun x hx => hdig x (by simp [hx]))
  have h4 : valFold cs d = n := by
    have hv := valFold_natChars n
    rw [hcc] at hv
    simpa [valFold, hd] using hv
  rw [hcc]
  simp only [leadDigits, hd]
  simpa [h2] using h4

theorem jsParseInt_natChars (n : Nat) : jsParseInt (natChars n) = some (n : Int) := by
  obtain ⟨c, cs, hcc⟩ : ∃ c cs, natChars n = c :: cs := by
    cases h : natChars n with
    | nil => exact absurd h (natChars_ne_nil n)
    | cons c cs => exact ⟨c, cs, rfl⟩
  have hdig := natChars_digits n
  have hds := ne_special_of_digit (hdig c (by rw [hcc]; simp))
  have hpar := leadDigits_natChars n
  rw [hcc] at hpar ⊢
  rw [jsParseInt, if_neg hds.2.1, if_neg hds.2.2, hpar]
  rfl

theorem natChars_injective {m n : Nat} (h : natChars m = natChars n) : m = n := by
  have h1 := valFold_natChars m
  rw [h] at h1
  rw [valFold_natChars n] at h1
  omega

theorem renderNum_natCast (n : Nat) : renderNum (some (n : Int)) = natChars n := by
  rw [renderNum]
  simp

/-! ## Facts about splitting and joining on dots -/

theorem splitOnDot_no_dot : ∀ (l : List Char), '.' ∉ l → splitOnDot l = [l] := by
  intro l
  induction l with
  | nil => intro _; rfl
  | cons c cs ih =>
      intro h
      have hc : ¬c = '.' := fun hh => h (by simp [hh])
      have hcs : '.' ∉ cs := fun hh => h (by simp [hh])
      rw [splitOnDot, if_neg hc, ih hcs]

theorem splitOnDot_append_dot : ∀ (l r : List Char), '.' ∉ l →
    splitOnDot (l ++ '.' :: r) = l :: splitOnDot r := by
  intro l
  induction l with
  | nil =>
      intro r _
      rw [List.nil_append, splitOnDot, if_pos rfl]
  | cons c cs ih =>
      intro r h
      have hc : ¬c = '.' := fun hh => h (by simp [hh])
      have hcs : '.' ∉ cs := fun hh => h (by simp [hh])
      rw [List.cons_append, splitOnDot, if_neg hc, ih r hcs]

theorem splitOnDot_joinDot : ∀ (ls : List (List Char)), ls ≠ [] →
    (∀ l ∈ ls, '.' ∉ l) → splitOnDot (joinDot ls) = ls := by
  intro ls
  induction ls with
  | nil => intro h; exact absurd rfl h
  | cons l ls ih =>
      intro _ hnd
      cases ls with
      | nil => exact splitOnDot_no_dot l (hnd l (by simp))
      | cons l2 ls2 =>
          rw [show joinDot (l :: l2 :: ls2) = l ++ '.' :: joinDot (l2 :: ls2) from rfl,
            splitOnDot_append_dot l _ (hnd l (by simp)),
            ih (by simp) (fun x hx => hnd x (by simp [hx]))]

theorem joinDot_concat : ∀ (ls : List (List Char)) (x : List Char), ls ≠ [] →
    joinDot (ls ++ [x]) = joinDot ls ++ '.' :: x := by
  intro ls
  induction ls with
  | nil => intro x h; exact absurd rfl h
  | cons l ls ih =>
      intro x _
      cases ls with
      | nil => rfl
      | cons l2 ls2 =>
          have ih2 := ih x (by simp)
          simp only [List.cons_append] at ih2 ⊢
          rw [show joinDot (l :: l2 :: (ls2 ++ [x])) =
              l ++ '.' :: joinDot (l2 :: (ls2 ++ [x])) from rfl, ih2,
            show joinDot (l :: l2 :: ls2) = l ++ '.' :: joinDot (l2 :: ls2) from rfl]
          simp

theorem incLast_concat : ∀ (xs : List (Option Int)) (x : Option Int),
    incLast (xs ++ [x]) = xs ++ [x.map (· + 1)] := by
  intro xs
  induction xs with
  | nil => intro x; rfl
  | cons y ys ih =>
      intro x
      cases ys with
      | nil => rfl
      | cons z zs =>
          have ih2 := ih x
          simp only [List.cons_append] at ih2 ⊢
          rw [show incLast (y :: z :: (zs ++ [x])) =
              y :: incLast (z :: (zs ++ [x])) from rfl, ih2]

/-! ## Facts about canonical keys -/

theorem natChars_no_dot (n : Nat) : '.' ∉ natChars n := by
  intro h
  exact absurd rfl (ne_special_of_digit (natChars_digits n '.' h)).1

theorem canonKey_data (ks : List Nat) : (canonKey ks).data = joinDot (ks.map natChars) := rfl

theorem canonKey_concat (ks : List Nat) (i : Nat) (h : ks ≠ []) :
    canonKey (ks ++ [i]) = canonKey ks ++ String.mk ('.' :: natChars i) := by
  show String.mk (joinDot ((ks ++ [i]).map natChars)) = _
  rw [List.map_append]
  simp only [List.map_cons, List.map_nil]
  rw [joinDot_concat (ks.map natChars) (natChars i) (by simpa using h)]
  rfl

theorem canonKey_zero (ks : List Nat) (h : ks ≠ []) :
    canonKey ks ++ ".0" = canonKey (ks ++ [0]) := by
  rw [canonKey_concat ks 0 h]
  rfl

theorem splitOnDot_canonKey (ks : List Nat) (h : ks ≠ []) :
    splitOnDot (canonKey ks).data = ks.map natChars := by
  rw [canonKey_data]
  exact splitOnDot_joinDot (ks.map natChars) (by simpa using h)
    (by intro l hl
        obtain ⟨n, _, rfl⟩ := List.mem_map.1 hl
        exact natChars_no_dot n)

theorem canonKey_injective {ks ls : List Nat} (h1 : ks ≠ []) (h2 : ls ≠ [])
    (h : canonKey ks = canonKey ls) : ks = ls := by
  have hd : (canonKey ks).data = (canonKey ls).data := by rw [h]
  rw [canonKey_data, canonKey_data] at hd
  have hs : ks.map natChars = ls.map natChars := by
    rw [← splitOnDot_joinDot (ks.map natChars) (by simpa using h1)
        (by intro l hl
            obtain ⟨n, _, rfl⟩ := List.mem_map.1 hl
            exact natChars_no_dot n),
      ← splitOnDot_joinDot (ls.map natChars) (by simpa using h2)
        (by intro l hl
            obtain ⟨n, _, rfl⟩ := List.mem_map.1 hl
            exact natChars_no_dot n),
      hd]
  exact List.map_injective_iff.2 (fun a b hab => natChars_injective hab) hs

theorem append_singleton_injective {ks : List Nat} {i j : Nat}
    (h : ks ++ [i] = ks ++ [j]) : i = j := by
  have := List.append_cancel_left h
  simpa using this

/-! ## Facts about the children container and the invariant -/

theorem insert_eq_snoc : ∀ (m : NodeMap) (k : String) (c : Node),
    m.hasKey k = false → m.insert k c = m.snoc k c
  | NodeMap.nil, _, _, _ => rfl
  | NodeMap.cons k1 c1 rest, k, c, h => by
      have h2 : ¬(k1 = k) ∧ rest.hasKey k = false := by
        constructor
        · intro hk
          rw [NodeMap.hasKey] at h
          simp [hk] at h
        · rw [NodeMap.hasKey] at h
          exact (Bool.or_eq_false_iff.1 h).2
      rw [NodeMap.insert, if_neg h2.1, insert_eq_snoc rest k c h2.2, NodeMap.snoc]

theorem keys_snoc : ∀ (m : NodeMap) (k : String) (c : Node),
    (m.snoc k c).keys = m.keys ++ [k]
  | NodeMap.nil, _, _ => rfl
  | NodeMap.cons k1 c1 rest, k, c => by
      rw [NodeMap.snoc, NodeMap.keys, keys_snoc rest k c, NodeMap.keys, List.cons_append]

theorem values_snoc : ∀ (m : NodeMap) (k : String) (c : Node),
    (m.snoc k c).values = m.values ++ [c]
  | NodeMap.nil, _, _ => rfl
  | NodeMap.cons k1 c1 rest, k, c => by
      rw [NodeMap.snoc, NodeMap.values, values_snoc rest k c, NodeMap.values,
        List.cons_append]

theorem find_snoc_self : ∀ (m : NodeMap) (k : String) (c : Node),
    m.hasKey k = false → (m.snoc k c).find k = some c
  | NodeMap.nil, k, c, _ => by simp [NodeMap.snoc, NodeMap.find]
  | NodeMap.cons k1 c1 rest, k, c, h => by
      have h2 : ¬(k1 = k) ∧ rest.hasKey k = false := by
        constructor
        · intro hk
          rw [NodeMap.hasKey] at h
          simp [hk] at h
        · rw [NodeMap.hasKey] at h
          exact (Bool.or_eq_false_iff.1 h).2
      rw [NodeMap.snoc, NodeMap.find, if_neg h2.1]
      exact find_snoc_self rest k c h2.2

theorem sRecsToList_injective : ∀ {a b : SRecs}, SRecs.toList a = SRecs.toList b → a = b
  | SRecs.nil, SRecs.nil, _ => rfl
  | SRecs.nil, SRecs.cons _ _, h => by simp [SRecs.toList] at h
  | SRecs.cons _ _, SRecs.nil, h => by simp [SRecs.toList] at h
  | SRecs.cons r rs, SRecs.cons r2 rs2, h => by
      rw [SRecs.toList, SRecs.toList] at h
      have h1 : r = r2 := (List.cons.injEq _ _ _ _ ▸ h).1
      have h2 : SRecs.toList rs = SRecs.toList rs2 := (List.cons.injEq _ _ _ _ ▸ h).2
      rw [h1, sRecsToList_injective h2]

theorem serializeMap_toList : ∀ (m : NodeMap),
    (serializeMap m).toList = m.values.map serialize
  | NodeMap.nil => rfl
  | NodeMap.cons k c rest => by
      rw [serializeMap, SRecs.toList, NodeMap.values, List.map_cons,
        serializeMap_toList rest]

theorem goodM_snoc : ∀ (m : NodeMap) (ks : List Nat) (i : Nat) (c : Node),
    goodM ks i m = true → goodT (ks ++ [i + (NodeMap.keys m).length]) c = true →
    goodM ks i (m.snoc (canonKey (ks ++ [i + (NodeMap.keys m).length])) c) = true
  | NodeMap.nil, ks, i, c, _, hc => by
      simp only [NodeMap.keys, List.length_nil, Nat.add_zero] at hc ⊢
      simp [NodeMap.snoc, goodM, hc]
  | NodeMap.cons k1 c1 rest, ks, i, c, hm, hc => by
      rw [goodM, Bool.and_eq_true, Bool.and_eq_true] at hm
      obtain ⟨⟨hk1, hc1⟩, hrest⟩ := hm
      have hlen : i + (NodeMap.keys (NodeMap.cons k1 c1 rest)).length =
          (i + 1) + (NodeMap.keys rest).length := by
        rw [NodeMap.keys, List.length_cons]
        omega
      rw [hlen] at hc ⊢
      rw [NodeMap.snoc, goodM, Bool.and_eq_true, Bool.and_eq_true]
      exact ⟨⟨hk1, hc1⟩, goodM_snoc rest ks (i + 1) c hrest hc⟩

theorem goodM_hasKey_false : ∀ (m : NodeMap) (ks : List Nat) (i j : Nat), ks ≠ [] →
    goodM ks i m = true → i + (NodeMap.keys m).length ≤ j →
    m.hasKey (canonKey (ks ++ [j])) = false
  | NodeMap.nil, _, _, _, _, _, _ => rfl
  | NodeMap.cons k1 c1 rest, ks, i, j, hks, hm, hj => by
      rw [goodM, Bool.and_eq_true, Bool.and_eq_true] at hm
      obtain ⟨⟨hk1, _⟩, hrest⟩ := hm
      rw [NodeMap.keys, List.length_cons] at hj
      rw [NodeMap.hasKey, Bool.or_eq_false_iff]
      constructor
      · have hk1e : k1 = canonKey (ks ++ [i]) := by rwa [beq_iff_eq] at hk1
        subst hk1e
        simp only [decide_eq_false_iff_not]
        intro hcon
        have := append_singleton_injective (canonKey_injective (by simp) (by simp) hcon)
        omega
      · exact goodM_hasKey_false rest ks (i + 1) j hks hrest (by omega)

theorem goodM_lastKey : ∀ (m : NodeMap) (ks : List Nat) (i : Nat), m ≠ NodeMap.nil →
    goodM ks i m = true →
    (NodeMap.keys m).getLastD "" = canonKey (ks ++ [i + (NodeMap.keys m).length - 1])
  | NodeMap.nil, _, _, h, _ => absurd rfl h
  | NodeMap.cons k1 c1 rest, ks, i, _, hm => by
      rw [goodM, Bool.and_eq_true, Bool.and_eq_true] at hm
      obtain ⟨⟨hk1, _⟩, hrest⟩ := hm
      rw [beq_iff_eq] at hk1
      cases hr : rest with
      | nil =>
          subst hr
          rw [show (NodeMap.cons k1 c1 NodeMap.nil).keys = [k1] from rfl,
            List.getLastD_eq_getLast?]
          simpa using hk1
      | cons k2 c2 rest2 =>
          subst hr
          have ih := goodM_lastKey (NodeMap.cons k2 c2 rest2) ks (i + 1) (by simp) hrest
          rw [show (NodeMap.cons k1 c1 (NodeMap.cons k2 c2 rest2)).keys =
              k1 :: (NodeMap.cons k2 c2 rest2).keys from rfl]
          rw [show (NodeMap.cons k2 c2 rest2).keys = k2 :: rest2.keys from rfl] at ih ⊢
          rw [List.getLastD_eq_getLast?, List.getLast?_cons_cons,
            ← List.getLastD_eq_getLast?, ih]
          have hlen2 : i + 1 + (k2 :: rest2.keys).length - 1 =
              i + (k1 :: k2 :: rest2.keys).length - 1 := by
            simp only [List.length_cons]
            omega
          rw [hlen2]

theorem nextKey_good : ∀ (m : NodeMap) (ks : List Nat), ks ≠ [] → goodM ks 0 m = true →
    nextChildKeyAux (canonKey ks) (some m) = canonKey (ks ++ [(NodeMap.keys m).length])
  | NodeMap.nil, ks, hks, _ => by
      rw [show nextChildKeyAux (canonKey ks) (some NodeMap.nil) =
          canonKey ks ++ ".0" from rfl,
        canonKey_zero ks hks]
      rfl
  | NodeMap.cons k1 c1 rest, ks, hks, hm => by
      have hlast := goodM_lastKey (NodeMap.cons k1 c1 rest) ks 0 (by simp) hm
      rw [Nat.zero_add] at hlast
      set len := (NodeMap.keys (NodeMap.cons k1 c1 rest)).length with hlen
      have hlenpos : 1 ≤ len := by
        rw [hlen, NodeMap.keys, List.length_cons]
        omega
      have hstep : nextChildKeyAux (canonKey ks) (some (NodeMap.cons k1 c1 rest)) =
          String.mk (joinDot ((incLast ((splitOnDot
            (((NodeMap.cons k1 c1 rest).keys.getLastD "").data)).map jsParseInt)).map
              renderNum)) := rfl
      rw [hstep, hlast, splitOnDot_canonKey (ks ++ [len - 1]) (by simp)]
      have hmaps : List.map jsParseInt (List.map natChars (ks ++ [len - 1])) =
          List.map (fun (x : Nat) => some (x : Int)) ks ++ [some ((len - 1 : Nat) : Int)] := by
        rw [List.map_map]
        simp only [Function.comp_def]
        rw [show List.map (fun (a : Nat) => jsParseInt (natChars a)) (ks ++ [len - 1]) =
            List.map (fun (a : Nat) => some (a : Int)) (ks ++ [len - 1]) from
          List.map_congr_left (fun a _ => jsParseInt_natChars a)]
        simp
      rw [hmaps, incLast_concat]
      have harith : ((len - 1 : Nat) : Int) + 1 = ((len : Nat) : Int) := by
        omega
      simp only [Option.map_some', List.map_append, List.map_map, List.map_cons,
        List.map_nil, Function.comp_def]
      rw [harith, renderNum_natCast len]
      rw [show List.map (fun (x : Nat) => renderNum (some (x : Int))) ks =
          List.map natChars ks from
        List.map_congr_left (fun a _ => renderNum_natCast a)]
      rw [show List.map natChars ks ++ [natChars len] =
          List.map natChars (ks ++ [len]) from by simp]
      rfl

/-! ## The construction invariant and the serialize round trip -/

mutual

theorem construct_spec : ∀ (X : SRec) (ks : List Nat), ks ≠ [] →
    goodT ks (construct X (canonKey ks)) = true ∧
    serialize (construct X (canonKey ks)) = X
  | SRec.noKids f, ks, _ => by
      constructor
      · simp [construct, goodT]
      · rfl
  | SRec.withKids f cs, ks, hks => by
      have h := constructChildren_spec cs ks 0 NodeMap.nil hks rfl rfl
      constructor
      · rw [show construct (SRec.withKids f cs) (canonKey ks) =
            Node.node (canonKey ks) (SRec.withKids f cs)
              (constructChildren (canonKey ks) NodeMap.nil cs) from rfl,
          goodT, Bool.and_eq_true]
        exact ⟨by simp, h.1⟩
      · rw [show serialize (construct (SRec.withKids f cs) (canonKey ks)) =
            SRec.withKids f
              (serializeMap (constructChildren (canonKey ks) NodeMap.nil cs)) from rfl]
        have hm : serializeMap (constructChildren (canonKey ks) NodeMap.nil cs) = cs :=
          sRecsToList_injective (by simpa using h.2.1)
        rw [hm]

theorem constructChildren_spec : ∀ (cs : SRecs) (ks : List Nat) (i : Nat) (acc : NodeMap),
    ks ≠ [] → goodM ks 0 acc = true → (NodeMap.keys acc).length = i →
    goodM ks 0 (constructChildren (canonKey ks) acc cs) = true ∧
    (serializeMap (constructChildren (canonKey ks) acc cs)).toList =
      (serializeMap acc).toList ++ cs.toList ∧
    (NodeMap.keys (constructChildren (canonKey ks) acc cs)).length = i + cs.length
  | SRecs.nil, ks, i, acc, _, hacc, hlen => by
      rw [show constructChildren (canonKey ks) acc SRecs.nil = acc from rfl]
      refine ⟨hacc, by simp [SRecs.toList], by simpa [SRecs.length] using hlen⟩
  | SRecs.cons r rs, ks, i, acc, hks, hacc, hlen => by
      have hck : nextChildKeyAux (canonKey ks) (some acc) = canonKey (ks ++ [i]) := by
        rw [nextKey_good acc ks hks hacc, hlen]
      have hchild := construct_spec r (ks ++ [i]) (by simp)
      have hfresh : acc.hasKey (canonKey (ks ++ [i])) = false :=
        goodM_hasKey_false acc ks 0 i hks hacc (by omega)
      have hunfold : constructChildren (canonKey ks) acc (SRecs.cons r rs) =
          constructChildren (canonKey ks)
            (acc.insert (nextChildKeyAux (canonKey ks) (some acc))
              (construct r (nextChildKeyAux (canonKey ks) (some acc)))) rs := rfl
      rw [hck] at hunfold
      rw [insert_eq_snoc acc _ _ hfresh] at hunfold
      have hsnocgood : goodM ks 0
          (acc.snoc (canonKey (ks ++ [i])) (construct r (canonKey (ks ++ [i])))) = true := by
        have := goodM_snoc acc ks 0 (construct r (canonKey (ks ++ [i]))) hacc
          (by rw [Nat.zero_add, hlen]; exact hchild.1)
        rw [Nat.zero_add, hlen] at this
        exact this
      have hsnoclen : (NodeMap.keys
          (acc.snoc (canonKey (ks ++ [i])) (construct r (canonKey (ks ++ [i]))))).length =
          i + 1 := by
        rw [keys_snoc, List.length_append, hlen]
        rfl
      have ih := constructChildren_spec rs ks (i + 1)
        (acc.snoc (canonKey (ks ++ [i])) (construct r (canonKey (ks ++ [i]))))
        hks hsnocgood hsnoclen
      refine ⟨by rw [hunfold]; exact ih.1, ?_, ?_⟩
      · rw [hunfold, ih.2.1, serializeMap_toList, values_snoc, serializeMap_toList]
        rw [List.map_append, List.map_cons, List.map_nil, hchild.2]
        rw [show (SRecs.cons r rs).toList = r :: rs.toList from rfl]
        simp
      · rw [hunfold, ih.2.2]
        rw [show (SRecs.cons r rs).length = rs.length + 1 from rfl]
        omega

end

theorem constructRoot_good (X : SRec) : goodT [0] (constructRoot X) = true :=
  (construct_spec X [0] (by simp)).1

theorem serialize_constructRoot (X : SRec) : serialize (constructRoot X) = X :=
  (construct_spec X [0] (by simp)).2

theorem construct_key : ∀ (X : SRec) (k : String), (construct X k).key = k
  | SRec.noKids _, _ => rfl
  | SRec.withKids _ _, _ => rfl

theorem construct_data : ∀ (X : SRec) (k : String), (construct X k).data = X
  | SRec.noKids _, _ => rfl
  | SRec.withKids _ _, _ => rfl

theorem goodT_key : ∀ (t : Node) (ks : List Nat), goodT ks t = true → t.key = canonKey ks
  | Node.leaf k d, ks, hg => by
      rw [goodT, beq_iff_eq] at hg
      exact hg
  | Node.node k d m, ks, hg => by
      rw [goodT, Bool.and_eq_true, beq_iff_eq] at hg
      exact hg.1

theorem goodT_children_good : ∀ (t : Node) (ks : List Nat) (m : NodeMap),
    goodT ks t = true → t.children = some m → goodM ks 0 m = true
  | Node.leaf _ _, _, _, _, hc => by simp [Node.children] at hc
  | Node.node k d m0, ks, m, hg, hc => by
      rw [goodT, Bool.and_eq_true] at hg
      rw [Node.children, Option.some.injEq] at hc
      rw [← hc]
      exact hg.2

theorem values_length_eq_keys_length : ∀ (m : NodeMap),
    m.values.length = m.keys.length
  | NodeMap.nil => rfl
  | NodeMap.cons k c rest => by
      rw [NodeMap.values, NodeMap.keys, List.length_cons, List.length_cons,
        values_length_eq_keys_length rest]

/-! ## `appendChild` and reachable trees preserve the invariant -/

theorem appendChild_key (t : Node) (d : SRec) (ks : List Nat) (hks : ks ≠ [])
    (hg : goodT ks t = true) :
    (appendChild t d).2.key = canonKey (ks ++ [(childrenList t).length]) := by
  cases t with
  | leaf k dt =>
      rw [goodT, beq_iff_eq] at hg
      subst hg
      rw [show (appendChild (Node.leaf (canonKey ks) dt) d).2 =
          construct d (nextChildKeyAux (canonKey ks) none) from rfl,
        construct_key,
        show nextChildKeyAux (canonKey ks) none = canonKey ks ++ ".0" from rfl,
        canonKey_zero ks hks]
      rfl
  | node k dt m =>
      rw [goodT, Bool.and_eq_true, beq_iff_eq] at hg
      obtain ⟨hk, hm⟩ := hg
      subst hk
      rw [show (appendChild (Node.node (canonKey ks) dt m) d).2 =
          construct d (nextChildKeyAux (canonKey ks) (some m)) from rfl,
        construct_key, nextKey_good m ks hks hm,
        show childrenList (Node.node (canonKey ks) dt m) = m.values from rfl,
        values_length_eq_keys_length]

theorem appendChild_good (t : Node) (d : SRec) (ks : List Nat) (hks : ks ≠ [])
    (hg : goodT ks t = true) : goodT ks (appendChild t d).1 = true := by
  cases t with
  | leaf k dt =>
      rw [goodT, beq_iff_eq] at hg
      subst hg
      rw [show (appendChild (Node.leaf (canonKey ks) dt) d).1 =
          Node.node (canonKey ks) dt
            (NodeMap.cons (construct d (nextChildKeyAux (canonKey ks) none)).key
              (construct d (nextChildKeyAux (canonKey ks) none)) NodeMap.nil) from rfl,
        goodT, Bool.and_eq_true]
      refine ⟨by simp, ?_⟩
      rw [construct_key,
        show nextChildKeyAux (canonKey ks) none = canonKey ks ++ ".0" from rfl,
        canonKey_zero ks hks, goodM, Bool.and_eq_true, Bool.and_eq_true]
      have hc := (construct_spec d (ks ++ [0]) (by simp)).1
      exact ⟨⟨by simp, hc⟩, rfl⟩
  | node k dt m =>
      rw [goodT, Bool.and_eq_true, beq_iff_eq] at hg
      obtain ⟨hk, hm⟩ := hg
      subst hk
      rw [show (appendChild (Node.node (canonKey ks) dt m) d).1 =
          Node.node (canonKey ks) dt
            (m.insert (construct d (nextChildKeyAux (canonKey ks) (some m))).key
              (construct d (nextChildKeyAux (canonKey ks) (some m)))) from rfl,
        goodT, Bool.and_eq_true]
      refine ⟨by simp, ?_⟩
      rw [construct_key, nextKey_good m ks hks hm]
      have hfresh : m.hasKey (canonKey (ks ++ [m.keys.length])) = false :=
        goodM_hasKey_false m ks 0 m.keys.length hks hm (by omega)
      rw [insert_eq_snoc m _ _ hfresh]
      have hcgood := (construct_spec d (ks ++ [m.keys.length]) (by simp)).1
      have := goodM_snoc m ks 0 (construct d (canonKey (ks ++ [m.keys.length]))) hm
        (by rw [Nat.zero_add]; exact hcgood)
      rw [Nat.zero_add] at this
      exact this

theorem goodM_modifyAt (f : Node → Node)
    (H : ∀ (u : Node) (ls : List Nat), ls ≠ [] → goodT ls u = true → goodT ls (f u) = true) :
    ∀ (m : NodeMap) (ks : List Nat) (i j : Nat), ks ≠ [] → goodM ks i m = true →
    goodM ks i (m.modifyAt j f) = true
  | NodeMap.nil, ks, i, j, _, hm => by
      rw [show NodeMap.modifyAt NodeMap.nil j f = NodeMap.nil from rfl]
      exact hm
  | NodeMap.cons k c rest, ks, i, 0, hks, hm => by
      rw [goodM, Bool.and_eq_true, Bool.and_eq_true] at hm
      obtain ⟨⟨hk, hc⟩, hrest⟩ := hm
      rw [show (NodeMap.cons k c rest).modifyAt 0 f = NodeMap.cons k (f c) rest from rfl,
        goodM, Bool.and_eq_true, Bool.and_eq_true]
      exact ⟨⟨hk, H c (ks ++ [i]) (by simp) hc⟩, hrest⟩
  | NodeMap.cons k c rest, ks, i, j + 1, hks, hm => by
      rw [goodM, Bool.and_eq_true, Bool.and_eq_true] at hm
      obtain ⟨⟨hk, hc⟩, hrest⟩ := hm
      rw [show (NodeMap.cons k c rest).modifyAt (j + 1) f =
          NodeMap.cons k c (rest.modifyAt j f) from rfl,
        goodM, Bool.and_eq_true, Bool.and_eq_true]
      exact ⟨⟨hk, hc⟩, goodM_modifyAt f H rest ks (i + 1) j hks hrest⟩

theorem appendAt_good : ∀ (p : List Nat) (t : Node) (d : SRec) (ks : List Nat),
    ks ≠ [] → goodT ks t = true → goodT ks (appendAt t p d) = true
  | [], t, d, ks, hks, hg => by
      cases t with
      | leaf k dt =>
          rw [show appendAt (Node.leaf k dt) [] d =
              (appendChild (Node.leaf k dt) d).1 from rfl]
          exact appendChild_good _ d ks hks hg
      | node k dt m =>
          rw [show appendAt (Node.node k dt m) [] d =
              (appendChild (Node.node k dt m) d).1 from rfl]
          exact appendChild_good _ d ks hks hg
  | _ :: _, Node.leaf k dt, d, ks, _, hg => hg
  | i :: p, Node.node k dt m, d, ks, hks, hg => by
      rw [goodT, Bool.and_eq_true] at hg
      rw [show appendAt (Node.node k dt m) (i :: p) d =
          Node.node k dt (m.modifyAt i (fun c => appendAt c p d)) from rfl,
        goodT, Bool.and_eq_true]
      exact ⟨hg.1,
        goodM_modifyAt _ (fun u ls hls hu => appendAt_good p u d ls hls hu)
          m ks 0 i hks hg.2⟩

theorem applyOps_good : ∀ (ops : List (List Nat × SRec)) (t : Node),
    goodT [0] t = true → goodT [0] (applyOps t ops) = true
  | [], _, h => h
  | (p, d) :: ops, t, h => by
      rw [show applyOps t ((p, d) :: ops) = applyOps (appendAt t p d) ops from rfl]
      exact applyOps_good ops _ (appendAt_good p t d [0] (by simp) h)

/-! ## Key uniqueness inside a canonical tree -/

mutual

theorem keyList_spec : ∀ (t : Node) (ks : List Nat), ks ≠ [] → goodT ks t = true →
    (keyList t).Nodup ∧ ∀ s ∈ keyList t, ∃ ls, s = canonKey (ks ++ ls)
  | Node.leaf k dt, ks, hks, hg => by
      rw [goodT, beq_iff_eq] at hg
      refine ⟨by simp [keyList, descendants], ?_⟩
      intro s hs
      simp only [keyList, descendants, Node.key, List.map_nil, List.mem_singleton] at hs
      subst hs
      exact ⟨[], by simp [hg]⟩
  | Node.node k dt m, ks, hks, hg => by
      rw [goodT, Bool.and_eq_true, beq_iff_eq] at hg
      obtain ⟨hk, hm⟩ := hg
      have hb := descKeys_spec m ks 0 hks hm
      have hklist : keyList (Node.node k dt m) = k :: (descList m).map Node.key := rfl
      rw [hklist]
      constructor
      · rw [List.nodup_cons]
        refine ⟨?_, hb.1⟩
        intro hmem
        obtain ⟨j, ls, _, hs⟩ := hb.2 k hmem
        rw [hk] at hs
        have heq := canonKey_injective hks (by simp) hs
        have hlen := congrArg List.length heq
        rw [List.length_append] at hlen
        simp at hlen
      · intro s hs
        rcases List.mem_cons.1 hs with rfl | hmem
        · exact ⟨[], by simp [hk]⟩
        · obtain ⟨j, ls, _, hs2⟩ := hb.2 s hmem
          exact ⟨j :: ls, hs2⟩

theorem descKeys_spec : ∀ (m : NodeMap) (ks : List Nat) (i : Nat), ks ≠ [] →
    goodM ks i m = true →
    ((descList m).map Node.key).Nodup ∧
    ∀ s ∈ (descList m).map Node.key, ∃ j ls, i ≤ j ∧ s = canonKey (ks ++ j :: ls)
  | NodeMap.nil, ks, i, _, _ => by
      constructor
      · rw [show descList NodeMap.nil = [] from rfl]
        simp
      · intro s hs
        rw [show descList NodeMap.nil = [] from rfl] at hs
        simp at hs
  | NodeMap.cons k c rest, ks, i, hks, hm => by
      rw [goodM, Bool.and_eq_true, Bool.and_eq_true] at hm
      obtain ⟨⟨hk, hc⟩, hrest⟩ := hm
      have ha := keyList_spec c (ks ++ [i]) (by simp) hc
      have hb := descKeys_spec rest ks (i + 1) hks hrest
      have hsplit : (descList (NodeMap.cons k c rest)).map Node.key =
          keyList c ++ (descList rest).map Node.key := by
        rw [show descList (NodeMap.cons k c rest) =
            (c :: descendants c) ++ descList rest from rfl]
        rw [List.map_append, List.map_cons]
        rfl
      rw [hsplit]
      have hmem1 : ∀ s ∈ keyList c, ∃ ls, s = canonKey (ks ++ i :: ls) := by
        intro s hs
        obtain ⟨ls, hl⟩ := ha.2 s hs
        refine ⟨ls, ?_⟩
        rw [hl, List.append_assoc]
        rfl
      constructor
      · rw [List.nodup_append]
        refine ⟨ha.1, hb.1, ?_⟩
        intro s hs1 hs2
        obtain ⟨ls, hl1⟩ := hmem1 s hs1
        obtain ⟨j, ls2, hj, hl2⟩ := hb.2 s hs2
        rw [hl1] at hl2
        have heq := canonKey_injective (by simp) (by simp) hl2
        have := List.append_cancel_left heq
        rw [List.cons.injEq] at this
        omega
      · intro s hs
        rcases List.mem_append.1 hs with h1 | h2
        · obtain ⟨ls, hl⟩ := hmem1 s h1
          exact ⟨i, ls, le_refl i, hl⟩
        · obtain ⟨j, ls, hj, hl⟩ := hb.2 s h2
          exact ⟨j, ls, by omega, hl⟩

end

mutual

theorem goodT_descendants : ∀ (t : Node) (ks : List Nat), ks ≠ [] → goodT ks t = true →
    ∀ u ∈ descendants t, ∃ ls, ls ≠ ([] : List Nat) ∧ goodT ls u = true
  | Node.leaf _ _, _, _, _ => by
      intro u hu
      rw [show descendants (Node.leaf _ _) = [] from rfl] at hu
      simp at hu
  | Node.node k dt m, ks, hks, hg => by
      rw [goodT, Bool.and_eq_true] at hg
      intro u hu
      rw [show descendants (Node.node k dt m) = descList m from rfl] at hu
      exact goodM_descendants m ks 0 hks hg.2 u hu

theorem goodM_descendants : ∀ (m : NodeMap) (ks : List Nat) (i : Nat), ks ≠ [] →
    goodM ks i m = true →
    ∀ u ∈ descList m, ∃ ls, ls ≠ ([] : List Nat) ∧ goodT ls u = true
  | NodeMap.nil, _, _, _, _ => by
      intro u hu
      rw [show descList NodeMap.nil = [] from rfl] at hu
      simp at hu
  | NodeMap.cons k c rest, ks, i, hks, hm => by
      rw [goodM, Bool.and_eq_true, Bool.and_eq_true] at hm
      obtain ⟨⟨hk, hc⟩, hrest⟩ := hm
      intro u hu
      rw [show descList (NodeMap.cons k c rest) =
          (c :: descendants c) ++ descList rest from rfl] at hu
      rcases List.mem_append.1 hu with h1 | h2
      · rcases List.mem_cons.1 h1 with rfl | h3
        · exact ⟨ks ++ [i], by simp, hc⟩
        · exact goodT_descendants c (ks ++ [i]) (by simp) hc u h3
      · exact goodM_descendants rest ks (i + 1) hks hrest u h2

end

theorem goodM_value_key : ∀ (m : NodeMap) (ks : List Nat) (i j : Nat) (c : Node),
    goodM ks i m = true → m.values.get? j = some c →
    c.key = canonKey (ks ++ [i + j]) ∧ goodT (ks ++ [i + j]) c = true
  | NodeMap.nil, _, _, j, _, _, hv => by
      rw [show NodeMap.values NodeMap.nil = [] from rfl] at hv
      simp at hv
  | NodeMap.cons k c1 rest, ks, i, 0, c, hm, hv => by
      rw [goodM, Bool.and_eq_true, Bool.and_eq_true] at hm
      rw [show (NodeMap.cons k c1 rest).values = c1 :: rest.values from rfl] at hv
      simp only [List.get?_cons_zero, Option.some.injEq] at hv
      subst hv
      rw [Nat.add_zero]
      exact ⟨goodT_key c1 (ks ++ [i]) hm.1.2, hm.1.2⟩
  | NodeMap.cons k c1 rest, ks, i, j + 1, c, hm, hv => by
      rw [goodM, Bool.and_eq_true, Bool.and_eq_true] at hm
      rw [show (NodeMap.cons k c1 rest).values = c1 :: rest.values from rfl] at hv
      simp only [List.get?_cons_succ] at hv
      have := goodM_value_key rest ks (i + 1) j c hm.2 hv
      rw [show i + 1 + j = i + (j + 1) from by omega] at this
      exact this

/-! ## The two source variants agree on construction and serialization -/

mutual

theorem v0_construct_eq : ∀ (X : SRec) (k : String), V0.construct X k = construct X k
  | SRec.noKids _, _ => rfl
  | SRec.withKids f cs, k => by
      rw [show V0.construct (SRec.withKids f cs) k =
          Node.node k (SRec.withKids f cs) (V0.constructChildren k NodeMap.nil cs) from rfl,
        show construct (SRec.withKids f cs) k =
          Node.node k (SRec.withKids f cs) (constructChildren k NodeMap.nil cs) from rfl,
        v0_constructChildren_eq cs k NodeMap.nil]

theorem v0_constructChildren_eq : ∀ (cs : SRecs) (k : String) (acc : NodeMap),
    V0.constructChildren k acc cs = constructChildren k acc cs
  | SRecs.nil, _, _ => rfl
  | SRecs.cons r rs, k, acc => by
      rw [show V0.constructChildren k acc (SRecs.cons r rs) =
          V0.constructChildren k
            (acc.insert (nextChildKeyAux k (some acc))
              (V0.construct r (nextChildKeyAux k (some acc)))) rs from rfl,
        v0_construct_eq r (nextChildKeyAux k (some acc)),
        v0_constructChildren_eq rs k
          (acc.insert (nextChildKeyAux k (some acc))
            (construct r (nextChildKeyAux k (some acc)))),
        show constructChildren k acc (SRecs.cons r rs) =
          constructChildren k
            (acc.insert (nextChildKeyAux k (some acc))
              (construct r (nextChildKeyAux k (some acc)))) rs from rfl]

end

mutual

theorem v0_serialize_eq : ∀ (t : Node), V0.serialize t = serialize t
  | Node.leaf _ _ => rfl
  | Node.node k d m => by
      rw [show V0.serialize (Node.node k d m) =
          SRec.withKids d.fields (V0.serializeMap m) from rfl,
        v0_serializeMap_eq m]
      rfl

theorem v0_serializeMap_eq : ∀ (m : NodeMap), V0.serializeMap m = serializeMap m
  | NodeMap.nil => rfl
  | NodeMap.cons k c rest => by
      rw [show V0.serializeMap (NodeMap.cons k c rest) =
          SRecs.cons (V0.serialize c) (V0.serializeMap rest) from rfl,
        v0_serialize_eq c, v0_serializeMap_eq rest]
      rfl

end

/-! ## Lookup characterizations -/

theorem find?_key_nodup : ∀ (l : List Node) (u : Node),
    (l.map Node.key).Nodup → u ∈ l →
    l.find? (fun n => n.key == u.key) = some u
  | [], u, _, h => absurd h (List.not_mem_nil u)
  | n :: rest, u, hnd, hmem => by
      rcases List.mem_cons.1 hmem with rfl | hmem2
      · simp [List.find?_cons]
      · have hne : (n.key == u.key) = false := by
          simp only [beq_eq_false_iff_ne, ne_eq]
          rw [List.map_cons, List.nodup_cons] at hnd
          intro he
          exact hnd.1 (he ▸ List.mem_map_of_mem Node.key hmem2)
        simp only [List.find?_cons, hne]
        exact find?_key_nodup rest u
          (by rw [List.map_cons, List.nodup_cons] at hnd; exact hnd.2) hmem2

theorem get_eq_find? (t : Node) (k : String) :
    t.get k = (t :: descendants t).find? (fun n => n.key == k) := by
  rw [Node.get]
  by_cases h : t.key = k
  · rw [if_pos h, List.find?_cons]
    have hb : (t.key == k) = true := by simpa using h
    simp [hb]
  · rw [if_neg h, List.find?_cons]
    have hb : (t.key == k) = false := by simpa using h
    simp [hb]

theorem get_self (t : Node) : t.get t.key = some t := by
  rw [Node.get, if_pos rfl]

theorem get_of_no_match (t : Node) (k : String)
    (h : ∀ n ∈ t :: descendants t, n.key ≠ k) : t.get k = none := by
  rw [get_eq_find?, List.find?_eq_none]
  intro n hn
  simpa using h n hn

theorem get_descendant (t : Node) (ks : List Nat) (hks : ks ≠ [])
    (hg : goodT ks t = true) (u : Node) (hu : u ∈ descendants t) :
    t.get u.key = some u := by
  have hnd := (keyList_spec t ks hks hg).1
  rw [keyList, List.nodup_cons] at hnd
  have hne : t.key ≠ u.key := fun he => hnd.1 (he ▸ List.mem_map_of_mem Node.key hu)
  rw [Node.get, if_neg hne]
  exact find?_key_nodup (descendants t) u hnd.2 hu

theorem getV0_descendant (t : Node) (ks : List Nat) (hks : ks ≠ [])
    (hg : goodT ks t = true) (u : Node) (hu : u ∈ descendants t) :
    getV0 t u.key = some u := by
  have hnd := (keyList_spec t ks hks hg).1
  rw [keyList, List.nodup_cons] at hnd
  exact find?_key_nodup (descendants t) u hnd.2 hu

theorem getV0_self_none (t : Node) (ks : List Nat) (hks : ks ≠ [])
    (hg : goodT ks t = true) : getV0 t t.key = none := by
  have hnd := (keyList_spec t ks hks hg).1
  rw [keyList, List.nodup_cons] at hnd
  rw [getV0, List.find?_eq_none]
  intro n hn he
  have he2 : n.key = t.key := by simpa using he
  exact hnd.1 (he2 ▸ List.mem_map_of_mem Node.key hn)

/-! ## List helpers for `getPath` -/

theorem pathNodes_shape : ∀ (p : List Nat) (t : Node) (ns : List Node),
    pathNodes t p = some ns → ∃ ns2, ns = t :: ns2 ∧ (p = [] ↔ ns2 = [])
  | [], t, ns, h => by
      rw [show pathNodes t [] = some [t] from rfl, Option.some.injEq] at h
      subst h
      exact ⟨[], rfl, by simp⟩
  | i :: p, t, ns, h => by
      rw [show pathNodes t (i :: p) =
          (match (childrenList t).get? i with
            | some c => (pathNodes c p).map (fun ns => t :: ns)
            | none => none) from rfl] at h
      cases hg : (childrenList t).get? i with
      | none => rw [hg] at h; simp at h
      | some c =>
          rw [hg] at h
          have h2 : Option.map (fun ns => t :: ns) (pathNodes c p) = some ns := h
          cases hm : pathNodes c p with
          | none => rw [hm] at h2; simp at h2
          | some ms =>
              rw [hm] at h2
              simp only [Option.map_some', Option.some.injEq] at h2
              obtain ⟨ms2, hms, _⟩ := pathNodes_shape p c ms hm
              exact ⟨ms, h2.symm, by simp [hms]⟩

theorem reverse_dropLast_reverse {α : Type} (l : List α) :
    (l.reverse.dropLast).reverse = l.tail := by
  cases l with
  | nil => rfl
  | cons a l2 =>
      rw [List.reverse_cons, List.dropLast_concat, List.reverse_reverse]
      rfl

theorem tail_dropLast {α : Type} (l : List α) : (l.dropLast).tail = (l.tail).dropLast := by
  cases l with
  | nil => rfl
  | cons a l2 =>
      cases l2 with
      | nil => rfl
      | cons b l3 => rfl

theorem getLastD_irrel {α : Type} (l : List α) (d e : α) (h : l ≠ []) :
    l.getLastD d = l.getLastD e := by
  rw [List.getLastD_eq_getLast?, List.getLastD_eq_getLast?]
  obtain ⟨x, hx⟩ := Option.isSome_iff_exists.1 (List.getLast?_isSome.2 h)
  rw [hx]
  rfl

theorem dropLast_append_getLastD {α : Type} (l : List α) (d : α) (h : l ≠ []) :
    l.dropLast ++ [l.getLastD d] = l := by
  obtain ⟨x, hx⟩ := Option.isSome_iff_exists.1 (List.getLast?_isSome.2 h)
  rw [List.getLastD_eq_getLast?, hx, Option.getD_some]
  have := List.getLast?_eq_getLast l h
  rw [this, Option.some.injEq] at hx
  rw [← hx]
  exact List.dropLast_append_getLast h

theorem getPath_eval (t : Node) (p : List Nat) (ind : String) (b : Bool)
    (ns : List Node) (h : pathNodes t p = some ns) :
    getPath t p ind b = some
      (((if b then ns.dropLast.reverse else (ns.dropLast.reverse).dropLast).reverse.map
        (fun a => SRec.read a.data ind)) ++ [SRec.read (ns.getLastD t).data ind]) := by
  rw [getPath, h]
  rfl

theorem getPath_incl (t : Node) (p : List Nat) (ind : String) (ns : List Node)
    (h : pathNodes t p = some ns) :
    getPath t p ind true = some (ns.map (fun n => SRec.read n.data ind)) := by
  obtain ⟨ns2, hsh, _⟩ := pathNodes_shape p t ns h
  have hne : ns ≠ [] := by rw [hsh]; simp
  rw [getPath_eval t p ind true ns h, if_pos rfl, List.reverse_reverse,
    Option.some.injEq]
  conv_rhs => rw [← dropLast_append_getLastD ns t hne]
  rw [List.map_append]
  rfl

theorem getPath_excl (t : Node) (p : List Nat) (ind : String) (ns : List Node)
    (hp : p ≠ []) (h : pathNodes t p = some ns) :
    getPath t p ind false = some (ns.tail.map (fun n => SRec.read n.data ind)) := by
  obtain ⟨ns2, hsh, hiff⟩ := pathNodes_shape p t ns h
  have hns2 : ns2 ≠ [] := fun hh => hp (hiff.2 hh)
  have htailne : ns.tail ≠ [] := by rw [hsh]; exact hns2
  rw [getPath_eval t p ind false ns h,
    show (if false then ns.dropLast.reverse else (ns.dropLast.reverse).dropLast) =
      (ns.dropLast.reverse).dropLast from rfl,
    reverse_dropLast_reverse, tail_dropLast, Option.some.injEq]
  have hgl : ns.getLastD t = ns.tail.getLastD t := by
    obtain ⟨b, l3, hb⟩ : ∃ b l3, ns2 = b :: l3 := by
      cases ns2 with
      | nil => exact absurd rfl hns2
      | cons b l3 => exact ⟨b, l3, rfl⟩
    rw [hsh, hb,
      show (t :: b :: l3).tail = b :: l3 from rfl,
      List.getLastD_eq_getLast?, List.getLastD_eq_getLast?, List.getLast?_cons_cons]
  rw [hgl]
  conv_rhs => rw [← dropLast_append_getLastD ns.tail t htailne]
  rw [List.map_append]
  rfl

theorem getPath_root_excl (t : Node) (ind : String) :
    getPath t [] ind false = some [SRec.read t.data ind] := rfl

mutual

theorem descendantsAnc_snd : ∀ (t : Node) (anc : List Node),
    (descendantsAnc t anc).map (fun pc => pc.2) = descendants t
  | Node.leaf _ _, _ => rfl
  | Node.node k d m, anc => by
      rw [show descendantsAnc (Node.node k d m) anc =
          descListAnc m (Node.node k d m :: anc) from rfl,
        show descendants (Node.node k d m) = descList m from rfl]
      exact descListAnc_snd m (Node.node k d m :: anc)

theorem descListAnc_snd : ∀ (m : NodeMap) (chain : List Node),
    (descListAnc m chain).map (fun pc => pc.2) = descList m
  | NodeMap.nil, _ => rfl
  | NodeMap.cons kk c rest, chain => by
      rw [show descListAnc (NodeMap.cons kk c rest) chain =
          ((chain, c) :: descendantsAnc c chain) ++ descListAnc rest chain from rfl,
        show descList (NodeMap.cons kk c rest) =
          (c :: descendants c) ++ descList rest from rfl,
        List.map_append, List.map_cons, descendantsAnc_snd c chain,
        descListAnc_snd rest chain]

end

example : demoTree =
    Node.node "0" demoRec (NodeMap.cons "0.0" nodeA (NodeMap.cons "0.1" nodeB NodeMap.nil)) :=
  rfl
example : descendants demoTree = [nodeA, nodeB, nodeC] := rfl

/-! ## The claims -/

/-- C1: for every well-formed nested serialized record `X` (exactly the
values of type `SRec`), building a tree from `X` with the root
constructor and then serializing returns `X` itself — child ordering and
nesting preserved on the nose (the embedding keeps payload field order,
which the claim leaves free); in particular this holds for every record
with no `children` field at any level. -/
theorem claim1_roundtrip :
    (∀ X : SRec, serialize (constructRoot X) = X) ∧
    (∀ X : SRec, noKidsDeep X = true → serialize (constructRoot X) = X) :=
  ⟨serialize_constructRoot, fun X _ => serialize_constructRoot X⟩

/-- Witness for C1 at the concrete record `{name: "x"}`. -/
theorem claim1_roundtrip_witness :
    noKidsDeep (SRec.noKids [("name", Value.str "x")]) = true ∧
    serialize (constructRoot (SRec.noKids [("name", Value.str "x")])) =
      SRec.noKids [("name", Value.str "x")] :=
  ⟨rfl, claim1_roundtrip.2 (SRec.noKids [("name", Value.str "x")]) rfl⟩

/-- C10: the two source variants implement the same construction and
serialization behavior: for every record `X`, construct-then-serialize in
`src/Tree.ts` and in `src/unnamed/part_000` yield the same record (and
both return `X` itself). -/
theorem claim10_variants_agree (X : SRec) :
    V0.serialize (V0.constructRoot X) = serialize (constructRoot X) ∧
    V0.serialize (V0.constructRoot X) = X := by
  have h1 : V0.constructRoot X = constructRoot X := by
    rw [show V0.constructRoot X = V0.construct X "0" from rfl,
      show constructRoot X = construct X "0" from rfl, v0_construct_eq]
  constructor
  · rw [h1, v0_serialize_eq]
  · rw [h1, v0_serialize_eq]
    exact serialize_constructRoot X

/-- C2 counterexample: in the §8 scenario tree the "a" node is a direct
child whose payload field `name` deeply equals `"a"`, yet
`findAllChildren({name:"a"})` returns the empty list — the claim says it
returns exactly the "a" node.  (The predicate is matched against the node
wrapper, which has no own `name` field; spec §9 flags this.) -/
theorem claim2_counterexample :
    childrenList demoTree = [nodeA, nodeB] ∧
    Node.data nodeA = SRec.noKids [("name", Value.str "a")] ∧
    findAllChildren demoTree predNameA = [] :=
  ⟨rfl, rfl, rfl⟩

/-- C2 (amended): the search predicates are matched against the node
wrapper object — own fields `key`, `data` and, when assigned, `children`
and `parent` — not against the payload alone: on the scenario tree
`findAllChildren({name:"a"})` and `findAllDescendants({name:"c"})` return
nothing and `findOneChild({name:"c"})` is absent, `name` not being a
wrapper field; predicates over the actual wrapper fields select as the
collaborator contract prescribes — `{data:{...}}` and `{key:...}` reach
payload and key, `{children:{...}}` descends into the container, and
`{parent:{...}}` climbs the ancestor chain; in general `findAllChildren`
/ `findAllDescendants` keep exactly the candidates (direct children
resp. descendants, each matched with its true ancestor chain) on which
every predicate field is present on the wrapper with a recursively
partially-equal value. -/
theorem claim2_amended :
    findAllChildren demoTree predNameA = [] ∧
    findAllDescendants demoTree predNameC = [] ∧
    findOneChild demoTree predNameC = none ∧
    findAllChildren demoTree predDataA = [nodeA] ∧
    findAllDescendants demoTree predDataC = [nodeC] ∧
    findAllDescendants demoTree predKeyC = [nodeC] ∧
    findAllChildren demoTree predChildrenB = [nodeB] ∧
    findAllDescendants demoTree predParentR = [nodeA, nodeB] ∧
    findAllDescendants demoTree predParentB = [nodeC] ∧
    (∀ (t n : Node) (pr : ValueFields),
      n ∈ findAllChildren t pr ↔
        n ∈ childrenList t ∧ isMatchNode [t] n pr = true) ∧
    (∀ (t n : Node) (pr : ValueFields),
      n ∈ findAllDescendants t pr ↔
        ∃ anc, (anc, n) ∈ descendantsAnc t [] ∧ isMatchNode anc n pr = true) ∧
    (∀ (t : Node) (anc : List Node),
      (descendantsAnc t anc).map (fun pc => pc.2) = descendants t) ∧
    (∀ (t n : Node) (pr : ValueFields),
      n ∈ findAllDescendants t pr → n ∈ descendants t) := by
  refine ⟨rfl, rfl, rfl, rfl, rfl, rfl, rfl, rfl, rfl, ?_, ?_, descendantsAnc_snd, ?_⟩
  · intro t n pr
    rw [findAllChildren, List.mem_filter]
  · intro t n pr
    rw [findAllDescendants, List.mem_map]
    constructor
    · rintro ⟨⟨anc, n2⟩, hmem, rfl⟩
      rw [List.mem_filter] at hmem
      exact ⟨anc, hmem.1, hmem.2⟩
    · rintro ⟨anc, hmem, hmatch⟩
      exact ⟨(anc, n), List.mem_filter.2 ⟨hmem, hmatch⟩, rfl⟩
  · intro t n pr hn
    rw [findAllDescendants, List.mem_map] at hn
    obtain ⟨pc, hpc, heq⟩ := hn
    rw [List.mem_filter] at hpc
    rw [← descendantsAnc_snd t []]
    exact heq ▸ List.mem_map_of_mem (fun pc => pc.2) hpc.1

/-- C3 counterexample: the self-match half of the claim fails for the
`get` of `src/unnamed/part_000`: on the §8 scenario root (key `"0"`),
that `get("0")` returns absent, while the `get` of `src/Tree.ts` returns
the node itself as the claim states. -/
theorem claim3_counterexample :
    Node.key demoTree = "0" ∧ getV0 demoTree "0" = none ∧
    Node.get demoTree "0" = some demoTree :=
  ⟨rfl, rfl, rfl⟩

/-- C3 (amended): for the `get` of `src/Tree.ts` the claim holds:
self-match, descendant lookup over the full descendant set (under the
canonical-key invariant the match is the unique descendant with that
key), and absence when no key in the subtree matches.  The variant `get`
of `src/unnamed/part_000` searches only the descendants, so its
self-match fails (`n.get(n.key)` is absent on a canonical tree), while
its descendant lookup agrees with `src/Tree.ts`. -/
theorem claim3_amended :
    (∀ t : Node, t.get t.key = some t) ∧
    (∀ (t : Node) (k : String), t.key ≠ k → t.get k = getV0 t k) ∧
    (∀ (t : Node) (ks : List Nat), ks ≠ [] → goodT ks t = true →
      ∀ u ∈ descendants t, t.get u.key = some u ∧ getV0 t u.key = some u) ∧
    (∀ (t : Node) (k : String), (∀ n ∈ t :: descendants t, n.key ≠ k) →
      t.get k = none ∧ getV0 t k = none) ∧
    (∀ (t : Node) (ks : List Nat), ks ≠ [] → goodT ks t = true →
      getV0 t t.key = none) := by
  refine ⟨get_self, ?_, ?_, ?_, ?_⟩
  · intro t k h
    rw [Node.get, if_neg h, getV0]
  · intro t ks hks hg u hu
    exact ⟨get_descendant t ks hks hg u hu, getV0_descendant t ks hks hg u hu⟩
  · intro t k h
    refine ⟨get_of_no_match t k h, ?_⟩
    rw [getV0, List.find?_eq_none]
    intro n hn he
    have he2 : n.key = k := by simpa using he
    exact h n (List.mem_cons_of_mem t hn) he2
  · intro t ks hks hg
    exact getV0_self_none t ks hks hg

/-- Witness for C3 (amended) on the scenario tree. -/
theorem claim3_amended_witness :
    (Node.get demoTree (Node.key nodeC) = some nodeC ∧
      getV0 demoTree (Node.key nodeC) = some nodeC) ∧
    getV0 demoTree (Node.key demoTree) = none :=
  ⟨claim3_amended.2.2.1 demoTree [0] (by simp) rfl nodeC (by
      rw [show descendants demoTree = [nodeA, nodeB, nodeC] from rfl]
      simp),
    claim3_amended.2.2.2.2 demoTree [0] (by simp) rfl⟩

/-- C4 counterexample: `appendChild` (and the constructor) store the
WHOLE input record as `data`, including its `children` field: for the
input `{name:"b", children:[{name:"c"}]}` the created node's `data`
equals the input itself, and the input is not equal to the input minus
`children` — so `data` does not equal the input minus `children`. -/
theorem claim4_counterexample :
    ((appendChild demoTree recB).2).data = recB ∧
    stripChildren recB = SRec.noKids [("name", Value.str "b")] ∧
    recB ≠ SRec.noKids [("name", Value.str "b")] := by
  refine ⟨rfl, rfl, ?_⟩
  intro h
  simp only [recB] at h
  exact SRec.noConfusion h

/-- C4 (amended): the node's `data` holds the entire input record — the
`children` field, when present, is retained inside `data` (the source
assigns `this.data = props`); `data` equals the input minus its
`children` field exactly when the input carries no `children` field. -/
theorem claim4_amended :
    (∀ (X : SRec) (k : String), (construct X k).data = X) ∧
    (∀ (t : Node) (d : SRec), ((appendChild t d).2).data = d) ∧
    (∀ (d : SRec), noKidsDeep d = true →
      ∀ t : Node, ((appendChild t d).2).data = stripChildren d) := by
  have happ : ∀ (t : Node) (d : SRec), ((appendChild t d).2).data = d := by
    intro t d
    cases t with
    | leaf k dt => exact construct_data d _
    | node k dt m => exact construct_data d _
  refine ⟨construct_data, happ, ?_⟩
  intro d hd t
  cases d with
  | noKids f => exact happ t (SRec.noKids f)
  | withKids f cs => simp [noKidsDeep] at hd

/-- Witness for C4 (amended) at the record `{name:"a"}`. -/
theorem claim4_amended_witness :
    ((appendChild demoTree recA).2).data = stripChildren recA :=
  claim4_amended.2.2 recA rfl demoTree

/-- C5: in every tree reachable through the public interface (root
construction from a record, then any sequence of `appendChild` calls at
arbitrary nodes): the root's key is `"0"` (built with no parent
reference), the whole tree satisfies the canonical-key invariant, no two
distinct nodes share a key (the full key list is duplicate-free), and
the j-th child (zero-based, insertion order) of any node of the tree has
exactly the parent's key extended by one dot-segment holding the decimal
rendering of j. -/
theorem claim5_keys (X : SRec) (ops : List (List Nat × SRec)) :
    Node.key (applyOps (constructRoot X) ops) = "0" ∧
    goodT [0] (applyOps (constructRoot X) ops) = true ∧
    (keyList (applyOps (constructRoot X) ops)).Nodup ∧
    (∀ u, (u = applyOps (constructRoot X) ops ∨
        u ∈ descendants (applyOps (constructRoot X) ops)) →
      ∀ (j : Nat) (c : Node), (childrenList u).get? j = some c →
        c.key = u.key ++ String.mk ('.' :: natChars j)) := by
  have hg := applyOps_good ops (constructRoot X) (constructRoot_good X)
  refine ⟨?_, hg, (keyList_spec _ [0] (by simp) hg).1, ?_⟩
  · rw [goodT_key _ [0] hg]
    rfl
  · intro u hu j c hc
    obtain ⟨ls, hls, hgu⟩ : ∃ ls, ls ≠ ([] : List Nat) ∧ goodT ls u = true := by
      rcases hu with rfl | hmem
      · exact ⟨[0], by simp, hg⟩
      · exact goodT_descendants _ [0] (by simp) hg u hmem
    cases u with
    | leaf k dt =>
        rw [show childrenList (Node.leaf k dt) = [] from rfl] at hc
        simp at hc
    | node k dt m =>
        rw [show childrenList (Node.node k dt m) = m.values from rfl] at hc
        have hv := goodM_value_key m ls 0 j c
          (goodT_children_good (Node.node k dt m) ls m hgu rfl) hc
        rw [Nat.zero_add] at hv
        rw [hv.1, goodT_key (Node.node k dt m) ls hgu]
        exact canonKey_concat ls j hls

/-- Witness for C5 on the scenario: zero appended operations; the "c"
node is the 0th child of the "b" node. -/
theorem claim5_keys_witness :
    Node.key (applyOps (constructRoot demoRec) []) = "0" ∧
    Node.key nodeC = Node.key nodeB ++ String.mk ('.' :: natChars 0) := by
  have h := claim5_keys demoRec []
  refine ⟨h.1, ?_⟩
  have hb : nodeB ∈ descendants (applyOps (constructRoot demoRec) []) := by
    rw [show descendants (applyOps (constructRoot demoRec) []) =
        [nodeA, nodeB, nodeC] from rfl]
    simp
  exact h.2.2.2 nodeB (Or.inr hb) 0 nodeC rfl

/-- C6: under the canonical-key invariant (which C5 establishes for every
reachable tree), after `appendChild`: the newly built node is returned,
the parent's children container (created when it was absent) maps the
child's key to the child, the parent's `childrenList` is the previous one
with exactly the new child appended at the end (so its length grows by
exactly one and all previously present entries are unchanged), and the
parent's own key and data are untouched.  The child's `parent` back
pointer of the source is represented in the pure embedding by this
containment in the parent's children container. -/
theorem claim6_appendChild (t : Node) (d : SRec) (ks : List Nat) (hks : ks ≠ [])
    (hg : goodT ks t = true) :
    ∃ m2, ((appendChild t d).1).children = some m2 ∧
      m2.find ((appendChild t d).2).key = some ((appendChild t d).2) ∧
      childrenList ((appendChild t d).1) =
        childrenList t ++ [(appendChild t d).2] ∧
      (childrenList ((appendChild t d).1)).length = (childrenList t).length + 1 ∧
      ((appendChild t d).1).key = t.key ∧ ((appendChild t d).1).data = t.data := by
  cases t with
  | leaf k dt =>
      refine ⟨NodeMap.cons (construct d (nextChildKeyAux k none)).key
        (construct d (nextChildKeyAux k none)) NodeMap.nil, rfl, ?_, rfl, rfl, rfl, rfl⟩
      rw [show ((appendChild (Node.leaf k dt) d).2) =
          construct d (nextChildKeyAux k none) from rfl,
        NodeMap.find, if_pos rfl]
  | node k dt m =>
      rw [goodT, Bool.and_eq_true, beq_iff_eq] at hg
      obtain ⟨hk, hm⟩ := hg
      have hckey : (construct d (nextChildKeyAux k (some m))).key =
          canonKey (ks ++ [m.keys.length]) := by
        rw [construct_key, hk, nextKey_good m ks hks hm]
      have hfresh : m.hasKey (construct d (nextChildKeyAux k (some m))).key = false := by
        rw [hckey]
        exact goodM_hasKey_false m ks 0 m.keys.length hks hm (by omega)
      have hsnoc : m.insert (construct d (nextChildKeyAux k (some m))).key
          (construct d (nextChildKeyAux k (some m))) =
          m.snoc (construct d (nextChildKeyAux k (some m))).key
            (construct d (nextChildKeyAux k (some m))) :=
        insert_eq_snoc m _ _ hfresh
      refine ⟨m.insert (construct d (nextChildKeyAux k (some m))).key
          (construct d (nextChildKeyAux k (some m))), rfl, ?_, ?_, ?_, rfl, rfl⟩
      · rw [show ((appendChild (Node.node k dt m) d).2) =
            construct d (nextChildKeyAux k (some m)) from rfl, hsnoc]
        exact find_snoc_self m _ _ hfresh
      · rw [show childrenList ((appendChild (Node.node k dt m) d).1) =
            (m.insert (construct d (nextChildKeyAux k (some m))).key
              (construct d (nextChildKeyAux k (some m)))).values from rfl,
          hsnoc, values_snoc]
        rfl
      · rw [show childrenList ((appendChild (Node.node k dt m) d).1) =
            (m.insert (construct d (nextChildKeyAux k (some m))).key
              (construct d (nextChildKeyAux k (some m)))).values from rfl,
          hsnoc, values_snoc, List.length_append]
        rfl

/-- Witness for C6 on the scenario tree with input `{name:"a"}`. -/
theorem claim6_appendChild_witness :
    childrenList ((appendChild demoTree recA).1) =
      childrenList demoTree ++ [(appendChild demoTree recA).2] := by
  obtain ⟨m2, h1, h2, h3, h4⟩ := claim6_appendChild demoTree recA [0] (by simp) rfl
  exact h3

/-- C7: `getNextChildKey` mutates nothing (the embedding is a plain
function of the node) and, under the canonical-key invariant: with no
children container or an empty one it returns the node's own key with
`".0"` appended; otherwise the most recently inserted child's key is the
canonical dot path ending in the final index, and the returned key is
that key with its final numeric segment incremented by one — equally the
node's own key extended by the dot-segment of the next index. -/
theorem claim7_nextChildKey (t : Node) (ks : List Nat) (hks : ks ≠ [])
    (hg : goodT ks t = true) :
    ((t.children = none ∨ t.children = some NodeMap.nil) →
      t.getNextChildKey = t.key ++ ".0") ∧
    (∀ m, t.children = some m → m ≠ NodeMap.nil →
      (NodeMap.keys m).getLastD "" =
        canonKey (ks ++ [(NodeMap.keys m).length - 1]) ∧
      t.getNextChildKey = canonKey (ks ++ [(NodeMap.keys m).length]) ∧
      t.getNextChildKey =
        t.key ++ String.mk ('.' :: natChars (NodeMap.keys m).length)) := by
  cases t with
  | leaf k dt =>
      refine ⟨fun _ => rfl, ?_⟩
      intro m hm
      rw [show Node.children (Node.leaf k dt) = none from rfl] at hm
      simp at hm
  | node k dt m0 =>
      rw [goodT, Bool.and_eq_true, beq_iff_eq] at hg
      obtain ⟨hk, hm0⟩ := hg
      subst hk
      constructor
      · intro hch
        rcases hch with h1 | h1 <;>
          rw [show Node.children (Node.node (canonKey ks) dt m0) = some m0 from rfl] at h1
        · simp at h1
        · rw [Option.some.injEq] at h1
          subst h1
          rfl
      · intro m hm hne
        rw [show Node.children (Node.node (canonKey ks) dt m0) = some m0 from rfl,
          Option.some.injEq] at hm
        subst hm
        have hlast := goodM_lastKey m0 ks 0 hne hm0
        rw [Nat.zero_add] at hlast
        have hnext : Node.getNextChildKey (Node.node (canonKey ks) dt m0) =
            canonKey (ks ++ [(NodeMap.keys m0).length]) := nextKey_good m0 ks hks hm0
        refine ⟨hlast, hnext, ?_⟩
        rw [hnext, canonKey_concat ks (NodeMap.keys m0).length hks]
        rfl

/-- Witness for C7 on the scenario: the root (two children) yields
`"0.2"`, the childless "a" node yields its key plus `".0"`. -/
theorem claim7_nextChildKey_witness :
    Node.getNextChildKey demoTree = "0.2" ∧
    Node.getNextChildKey nodeA = "0.0.0" := by
  constructor
  · have h := (claim7_nextChildKey demoTree [0] (by simp) rfl).2
      (NodeMap.cons "0.0" nodeA (NodeMap.cons "0.1" nodeB NodeMap.nil)) rfl (by simp)
    exact h.2.1
  · have h := (claim7_nextChildKey nodeA [0, 0] (by simp) rfl).1 (Or.inl rfl)
    exact h

/-- C8: `getPath(field, includeRoot)` on the node addressed by a valid
child-index path returns the field values of `data` along the chain from
the root down to and including the node itself; with `includeRoot` false,
the root's value is dropped — except on the root itself, where the result
is the one-element path with the root's own value.  On the §8 scenario
node with key `"0.1.0"` (path `[1, 0]`), `getPath("name", false)` is
`["b","c"]` and `getPath("name", true)` is `["r","b","c"]`. -/
theorem claim8_getPath :
    (∀ (t : Node) (p : List Nat) (ind : String) (ns : List Node),
      pathNodes t p = some ns →
      getPath t p ind true = some (ns.map (fun n => SRec.read n.data ind)) ∧
      (p ≠ [] → getPath t p ind false =
        some (ns.tail.map (fun n => SRec.read n.data ind)))) ∧
    (∀ (t : Node) (ind : String), getPath t [] ind false = some [SRec.read t.data ind]) ∧
    pathNodes demoTree [1, 0] = some [demoTree, nodeB, nodeC] ∧
    Node.key nodeC = "0.1.0" ∧
    getPath demoTree [1, 0] "name" false = some [Value.str "b", Value.str "c"] ∧
    getPath demoTree [1, 0] "name" true =
      some [Value.str "r", Value.str "b", Value.str "c"] := by
  refine ⟨?_, getPath_root_excl, rfl, rfl, rfl, rfl⟩
  intro t p ind ns h
  exact ⟨getPath_incl t p ind ns h, fun hp => getPath_excl t p ind ns hp h⟩

/-- Witness for C8 on the scenario path `[1, 0]`. -/
theorem claim8_getPath_witness :
    getPath demoTree [1, 0] "name" true =
      some ([demoTree, nodeB, nodeC].map (fun n => SRec.read n.data "name")) ∧
    getPath demoTree [1, 0] "name" false =
      some ([demoTree, nodeB, nodeC].tail.map (fun n => SRec.read n.data "name")) := by
  have h := claim8_getPath.1 demoTree [1, 0] "name" [demoTree, nodeB, nodeC] rfl
  exact ⟨h.1, h.2 (by simp)⟩

/-- C9: `get`, `findOneChild` and `findOneDescendant` are total functions
into an optional result (the embedding returns `Option`, never failing):
`get` is exactly the first match over the node itself followed by its
descendants in traversal order, the `findOne*` operations are the first
elements of the corresponding `findAll*` results, and whenever nothing
matches each of them returns `none` rather than an error. -/
theorem claim9_total_lookup :
    (∀ (t : Node) (k : String),
      t.get k = (t :: descendants t).find? (fun n => n.key == k)) ∧
    (∀ (t : Node) (pr : ValueFields),
      findOneDescendant t pr = (findAllDescendants t pr).head?) ∧
    (∀ (t : Node) (pr : ValueFields),
      findOneChild t pr = (findAllChildren t pr).head?) ∧
    (∀ (t : Node) (k : String), (∀ n ∈ t :: descendants t, n.key ≠ k) →
      t.get k = none) ∧
    (∀ (t : Node) (pr : ValueFields), findAllDescendants t pr = [] →
      findOneDescendant t pr = none) ∧
    (∀ (t : Node) (pr : ValueFields), findAllChildren t pr = [] →
      findOneChild t pr = none) := by
  refine ⟨get_eq_find?, ?_, ?_, get_of_no_match, ?_, ?_⟩
  · intro t pr
    cases h : findAllDescendants t pr <;> simp [findOneDescendant, h]
  · intro t pr
    cases h : findAllChildren t pr <;> simp [findOneChild, h]
  · intro t pr h
    simp [findOneDescendant, h]
  · intro t pr h
    simp [findOneChild, h]

/-- Witness for C9 on the scenario tree with an absent key and the
nowhere-matching predicate `{name:"c"}` (wrapper matching). -/
theorem claim9_total_lookup_witness :
    Node.get demoTree "7" = none ∧
    findOneDescendant demoTree predNameC = none ∧
    findOneChild demoTree predNameC = none :=
  ⟨claim9_total_lookup.2.2.2.1 demoTree "7" (by decide),
    claim9_total_lookup.2.2.2.2.1 demoTree predNameC rfl,
    claim9_total_lookup.2.2.2.2.2 demoTree predNameC rfl⟩
